import Mathlib

/-!
Verification of the Portage discovery and reconciliation engine
(`main.go`): listing parser, process-metadata resolver cache, uptime
formatter, discovery ledger, workspace event ledger, workspace
reconciler, sorter and the `truncate` helper, shallowly embedded as
executable Lean definitions.
-/

namespace Portage

/-- Characters accepted as whitespace by Go's `fmt` scanner
(`unicode.IsSpace` over the inputs that can occur here). -/
def goSpace (c : Char) : Bool :=
  c.toNat = 32 || c.toNat = 9 || c.toNat = 10 || c.toNat = 11 ||
  c.toNat = 12 || c.toNat = 13 || c.toNat = 133 || c.toNat = 160

/-- ASCII decimal digit test, as Go's scanner and `strconv` use it. -/
def isDigitC (c : Char) : Bool :=
  48 ≤ c.toNat && c.toNat ≤ 57

/-- Split a character list on a separator character; mirrors Go's
`strings.Split(s, sep)` for a one-character separator. -/
def splitChars (c : Char) : List Char → List (List Char)
  | [] => [[]]
  | x :: xs =>
    match splitChars c xs with
    | [] => [[]]
    | h :: t => if x = c then [] :: h :: t else (x :: h) :: t

/-- String-level wrapper of `splitChars`. -/
def splitOnChar (c : Char) (s : String) : List String :=
  (splitChars c s.data).map (fun l => ⟨l⟩)

/-- Membership test for a character in a string (`strings.Contains`
with a one-character needle). -/
def containsChar (s : String) (c : Char) : Bool :=
  s.data.any (fun x => x = c)

/-- Fuelled digit extraction, most significant digit first. -/
def natToCharsF : Nat → Nat → List Char
  | 0, _ => []
  | f + 1, n =>
    if n < 10 then [Char.ofNat (48 + n)]
    else natToCharsF f (n / 10) ++ [Char.ofNat (48 + n % 10)]

/-- Decimal digits of a natural number, most significant first
(the digits `fmt.Sprintf("%d", n)` prints). -/
def natToChars (n : Nat) : List Char :=
  natToCharsF (n + 1) n

/-- Decimal rendering of a natural number as a string. -/
def natStr (n : Nat) : String :=
  ⟨natToChars n⟩

/-- Decimal rendering of a Go `int`, as `fmt.Sprintf("%d", i)`. -/
def intToString (i : Int) : String :=
  if i < 0 then ⟨'-' :: natToChars i.natAbs⟩ else ⟨natToChars i.natAbs⟩

/-- Value of a most-significant-first digit list. -/
def valOfDigits (l : List Char) : Nat :=
  l.foldl (fun a c => 10 * a + (c.toNat - 48)) 0

/-- Model of `fmt.Sscanf(s, "%d", &x)` over the characters of `s`:
skip leading white space, read an optional sign and a maximal digit
run; when no digit is found the scanned variable keeps its zero
value. -/
def parseGoIntChars (l : List Char) : Int :=
  let l1 := l.dropWhile goSpace
  if l1.headD ' ' = '-' then
    (if (l1.tail.takeWhile isDigitC).isEmpty then 0
     else -(valOfDigits (l1.tail.takeWhile isDigitC) : Int))
  else if l1.headD ' ' = '+' then
    (if (l1.tail.takeWhile isDigitC).isEmpty then 0
     else (valOfDigits (l1.tail.takeWhile isDigitC) : Int))
  else
    (if (l1.takeWhile isDigitC).isEmpty then 0
     else (valOfDigits (l1.takeWhile isDigitC) : Int))

/-- String-level wrapper of `parseGoIntChars`. -/
def parseGoInt (s : String) : Int :=
  parseGoIntChars s.data

/-- The day count parsed from an elapsed-time string: `formatUptime`
splits on `-` and scans the first part when a dash is present. -/
def dayValue (etime : String) : Int :=
  if containsChar etime '-' then parseGoInt ((splitOnChar '-' etime).getD 0 "")
  else 0

/-- The remainder of an elapsed-time string after the day prefix:
`formatUptime` reassigns `etime` to the second `-`-separated part when
a dash is present. -/
def dayStripped (etime : String) : String :=
  if containsChar etime '-' then (splitOnChar '-' etime).getD 1 ""
  else etime

/-- Label-and-total computation shared by the 2-group and 3-group
branches of `formatUptime` in `main.go`, with the totals over
unbounded integers.  `uptimeLabel64` below is the same computation
with Go's wrapping 64-bit `int` arithmetic; the two agree whenever
every stored total lies in the `int64` range
(`uptimeLabel64_agrees`). -/
def uptimeLabel (days hours minutes seconds : Int) : String × Int :=
  let totalSeconds := days * 86400 + hours * 3600 + minutes * 60 + seconds
  let totalHours := days * 24 + hours
  let totalMinutes := totalHours * 60 + minutes
  if totalHours < 3 then (intToString totalMinutes ++ "m", totalSeconds)
  else if totalHours ≥ 200 then (intToString (totalHours.tdiv 24) ++ "d", totalSeconds)
  else (intToString totalHours ++ "h", totalSeconds)

/-- Model of `formatUptime` (`main.go`): parse an optional `days-`
prefix, split the remainder on `:`; two groups are minutes and
seconds, three groups are hours, minutes and seconds, any other arity
returns the (stripped) remainder with zero seconds.  Arithmetic over
unbounded integers; `formatUptime64` below is the variant with Go's
wrapping 64-bit `int` arithmetic, used where inputs outside the
`int64`-exact regime matter. -/
def formatUptime (etime : String) : String × Int :=
  let days := dayValue etime
  let rest := dayStripped etime
  let timeParts := splitOnChar ':' rest
  if timeParts.length = 2 then
    uptimeLabel days 0 (parseGoInt (timeParts.getD 0 "")) (parseGoInt (timeParts.getD 1 ""))
  else if timeParts.length = 3 then
    uptimeLabel days (parseGoInt (timeParts.getD 0 ""))
      (parseGoInt (timeParts.getD 1 "")) (parseGoInt (timeParts.getD 2 ""))
  else (rest, 0)

/-- Tier selector written from the specification's words: minutes
label below three hours, integer-division days label from 200 hours
on, hours label otherwise. -/
def uptimeTierLabel (totalHours minutes : Int) : String :=
  if totalHours < 3 then intToString (totalHours * 60 + minutes) ++ "m"
  else if totalHours ≥ 200 then intToString (totalHours.tdiv 24) ++ "d"
  else intToString totalHours ++ "h"

theorem splitChars_ne_nil (c : Char) (l : List Char) : splitChars c l ≠ [] := by
  cases l with
  | nil => simp [splitChars]
  | cons x xs =>
    simp only [splitChars]
    cases h : splitChars c xs with
    | nil => simp
    | cons h t =>
      by_cases hx : x = c <;> simp [hx]

theorem splitChars_of_not_mem {c : Char} {l : List Char} (h : ∀ x ∈ l, x ≠ c) :
    splitChars c l = [l] := by
  induction l with
  | nil => rfl
  | cons x xs ih =>
    have hx : x ≠ c := h x (by simp)
    have ihh := ih (fun y hy => h y (by simp [hy]))
    simp only [splitChars, ihh]
    simp [hx]

theorem splitChars_append_sep {c : Char} {a : List Char} (b : List Char)
    (h : ∀ x ∈ a, x ≠ c) :
    splitChars c (a ++ c :: b) = a :: splitChars c b := by
  induction a with
  | nil =>
    simp only [List.nil_append, splitChars]
    cases hs : splitChars c b with
    | nil => exact absurd hs (splitChars_ne_nil c b)
    | cons hb tb => simp
  | cons x xs ih =>
    have hx : x ≠ c := h x (by simp)
    have ihh := ih (fun y hy => h y (by simp [hy]))
    simp only [List.cons_append, splitChars, List.append_eq]
    rw [ihh]
    simp [hx]

theorem toNat_ofNat_digit (n : Nat) (h : n < 10) :
    (Char.ofNat (48 + n)).toNat = 48 + n := by
  interval_cases n <;> decide

theorem natToCharsF_irrel (n : Nat) :
    ∀ f g, n < f → n < g → natToCharsF f n = natToCharsF g n := by
  induction n using Nat.strongRecOn with
  | ind n ih =>
    intro f g hf hg
    match f, g with
    | f + 1, g + 1 =>
      simp only [natToCharsF]
      by_cases h : n < 10
      · simp [h]
      · have hdiv : n / 10 < n := Nat.div_lt_self (by omega) (by omega)
        rw [if_neg h, if_neg h, ih (n / 10) hdiv f g (by omega) (by omega)]

theorem natToChars_unfold (n : Nat) :
    natToChars n =
      if n < 10 then [Char.ofNat (48 + n)]
      else natToChars (n / 10) ++ [Char.ofNat (48 + n % 10)] := by
  by_cases h : n < 10
  · rw [if_pos h]
    show natToCharsF (n + 1) n = _
    simp only [natToCharsF]
    rw [if_pos h]
  · rw [if_neg h]
    show natToCharsF (n + 1) n = natToCharsF (n / 10 + 1) (n / 10) ++ [Char.ofNat (48 + n % 10)]
    have hdiv : n / 10 < n := Nat.div_lt_self (by omega) (by omega)
    have h1 : natToCharsF (n + 1) n = natToCharsF n (n / 10) ++ [Char.ofNat (48 + n % 10)] := by
      simp only [natToCharsF]
      rw [if_neg h]
    rw [h1, natToCharsF_irrel (n / 10) n (n / 10 + 1) (by omega) (by omega)]

theorem natToChars_digit (n : Nat) :
    ∀ c ∈ natToChars n, 48 ≤ c.toNat ∧ c.toNat ≤ 57 := by
  induction n using Nat.strongRecOn with
  | ind n ih =>
    intro c hc
    rw [natToChars_unfold] at hc
    by_cases h : n < 10
    · rw [if_pos h] at hc
      simp only [List.mem_singleton] at hc
      subst hc
      rw [toNat_ofNat_digit n h]
      omega
    · rw [if_neg h] at hc
      rcases List.mem_append.mp hc with h1 | h2
      · exact ih (n / 10) (Nat.div_lt_self (by omega) (by omega)) c h1
      · simp only [List.mem_singleton] at h2
        subst h2
        rw [toNat_ofNat_digit (n % 10) (Nat.mod_lt _ (by omega))]
        omega

theorem char_ne_of_toNat_ne {c d : Char} (h : c.toNat ≠ d.toNat) : c ≠ d :=
  fun he => h (by rw [he])

theorem digit_char_clean {c : Char} (h1 : 48 ≤ c.toNat) (h2 : c.toNat ≤ 57) :
    c ≠ ':' ∧ c ≠ '-' ∧ c ≠ '+' ∧ c ≠ '\t' ∧ c ≠ '\n' ∧ goSpace c = false ∧
      isDigitC c = true := by
  refine ⟨?_, ?_, ?_, ?_, ?_, ?_, ?_⟩
  · intro he; subst he; revert h1 h2; decide
  · intro he; subst he; revert h1 h2; decide
  · intro he; subst he; revert h1 h2; decide
  · intro he; subst he; revert h1 h2; decide
  · intro he; subst he; revert h1 h2; decide
  · by_contra hg
    rw [Bool.not_eq_false] at hg
    unfold goSpace at hg
    simp only [Bool.or_eq_true, decide_eq_true_eq] at hg
    omega
  · unfold isDigitC
    simp only [Bool.and_eq_true, decide_eq_true_eq]
    omega

theorem natToChars_ne_nil (n : Nat) : natToChars n ≠ [] := by
  rw [natToChars_unfold]
  by_cases h : n < 10
  · rw [if_pos h]; simp
  · rw [if_neg h]; simp

theorem valOfDigits_append_digit (l : List Char) (c : Char) :
    valOfDigits (l ++ [c]) = 10 * valOfDigits l + (c.toNat - 48) := by
  unfold valOfDigits
  rw [List.foldl_append]
  rfl

theorem valOfDigits_natToChars (n : Nat) : valOfDigits (natToChars n) = n := by
  induction n using Nat.strongRecOn with
  | ind n ih =>
    rw [natToChars_unfold]
    by_cases h : n < 10
    · rw [if_pos h]
      unfold valOfDigits
      simp [toNat_ofNat_digit n h]
    · rw [if_neg h]
      rw [valOfDigits_append_digit, ih (n / 10) (Nat.div_lt_self (by omega) (by omega)),
        toNat_ofNat_digit (n % 10) (Nat.mod_lt _ (by omega))]
      omega

theorem dropWhile_all_false {α : Type} (p : α → Bool) (l : List α)
    (h : ∀ x ∈ l, p x = false) : l.dropWhile p = l := by
  cases l with
  | nil => rfl
  | cons x xs =>
    rw [List.dropWhile_cons_of_neg]
    simp [h x (by simp)]

theorem takeWhile_all_true {α : Type} (p : α → Bool) (l : List α)
    (h : ∀ x ∈ l, p x = true) : l.takeWhile p = l := by
  induction l with
  | nil => rfl
  | cons x xs ih =>
    rw [List.takeWhile_cons_of_pos (h x (by simp)), ih (fun y hy => h y (by simp [hy]))]

theorem parseGoIntChars_digits (n : Nat) :
    parseGoIntChars (natToChars n) = (n : Int) := by
  have hd := natToChars_digit n
  have hdrop : (natToChars n).dropWhile goSpace = natToChars n :=
    dropWhile_all_false _ _ (fun x hx => ((digit_char_clean (hd x hx).1 (hd x hx).2).2.2.2.2.2.1))
  have htake : (natToChars n).takeWhile isDigitC = natToChars n :=
    takeWhile_all_true _ _ (fun x hx => ((digit_char_clean (hd x hx).1 (hd x hx).2).2.2.2.2.2.2))
  rcases hnn : natToChars n with _ | ⟨c0, cs⟩
  · exact absurd hnn (natToChars_ne_nil n)
  · have hc0 : 48 ≤ c0.toNat ∧ c0.toNat ≤ 57 := hd c0 (by rw [hnn]; simp)
    have hclean := digit_char_clean hc0.1 hc0.2
    unfold parseGoIntChars
    rw [hnn] at hdrop htake
    rw [hdrop]
    simp only [List.headD_cons]
    rw [if_neg (by simpa using hclean.2.1), if_neg (by simpa using hclean.2.2.1), htake]
    have : ¬ (c0 :: cs).isEmpty = true := by simp
    rw [if_neg this]
    rw [← hnn, valOfDigits_natToChars]

theorem parseGoIntChars_nonneg (l : List Char) (h : ∀ x ∈ l, x ≠ '-') :
    0 ≤ parseGoIntChars l := by
  have hsub : ∀ x ∈ l.dropWhile goSpace, x ∈ l := by
    intro x hx
    exact (List.dropWhile_sublist goSpace (l := l)).subset hx
  unfold parseGoIntChars
  by_cases hm : (l.dropWhile goSpace).headD ' ' = '-'
  · exfalso
    rcases hld : l.dropWhile goSpace with _ | ⟨c0, cs⟩
    · rw [hld] at hm; simp at hm
    · rw [hld] at hm
      simp only [List.headD_cons] at hm
      exact h c0 (hsub c0 (by rw [hld]; simp)) hm
  · rw [if_neg hm]
    by_cases hp : (l.dropWhile goSpace).headD ' ' = '+'
    · rw [if_pos hp]
      split
      · exact le_refl 0
      · positivity
    · rw [if_neg hp]
      split
      · exact le_refl 0
      · positivity

theorem natToChars_clean (n : Nat) :
    ∀ x ∈ natToChars n, x ≠ ':' ∧ x ≠ '-' := by
  intro x hx
  have d := natToChars_digit n x hx
  exact ⟨(digit_char_clean d.1 d.2).1, (digit_char_clean d.1 d.2).2.1⟩

theorem timeChars_no_dash (h m s : Nat) :
    ∀ x ∈ natToChars h ++ ':' :: (natToChars m ++ ':' :: natToChars s), x ≠ '-' := by
  intro x hx
  rcases List.mem_append.mp hx with h1 | h2
  · exact (natToChars_clean h x h1).2
  · rcases List.mem_cons.mp h2 with rfl | h3
    · decide
    · rcases List.mem_append.mp h3 with h4 | h5
      · exact (natToChars_clean m x h4).2
      · rcases List.mem_cons.mp h5 with rfl | h6
        · decide
        · exact (natToChars_clean s x h6).2

theorem splitChars_colon3 (A B C : List Char)
    (hA : ∀ x ∈ A, x ≠ ':') (hB : ∀ x ∈ B, x ≠ ':') (hC : ∀ x ∈ C, x ≠ ':') :
    splitChars ':' (A ++ ':' :: (B ++ ':' :: C)) = [A, B, C] := by
  rw [splitChars_append_sep _ hA, splitChars_append_sep _ hB,
    splitChars_of_not_mem hC]

theorem splitChars_colon2 (A B : List Char)
    (hA : ∀ x ∈ A, x ≠ ':') (hB : ∀ x ∈ B, x ≠ ':') :
    splitChars ':' (A ++ ':' :: B) = [A, B] := by
  rw [splitChars_append_sep _ hA, splitChars_of_not_mem hB]

theorem parseGoInt_natStr (n : Nat) : parseGoInt (natStr n) = (n : Int) :=
  parseGoIntChars_digits n

theorem uptimeLabel_eq_tier (d h m s : Int) :
    uptimeLabel d h m s =
      (uptimeTierLabel (d * 24 + h) m, d * 86400 + h * 3600 + m * 60 + s) := by
  simp only [uptimeLabel, uptimeTierLabel]
  split_ifs <;> rfl

theorem formatUptime_dhms (d h m s : Nat) :
    formatUptime (natStr d ++ "-" ++ natStr h ++ ":" ++ natStr m ++ ":" ++ natStr s) =
      uptimeLabel d h m s := by
  have hdata : (natStr d ++ "-" ++ natStr h ++ ":" ++ natStr m ++ ":" ++ natStr s).data =
      natToChars d ++ '-' :: (natToChars h ++ ':' :: (natToChars m ++ ':' :: natToChars s)) := by
    simp [natStr, String.data_append]
  have hcon : containsChar (natStr d ++ "-" ++ natStr h ++ ":" ++ natStr m ++ ":" ++ natStr s) '-' = true := by
    unfold containsChar
    rw [hdata, List.any_eq_true]
    exact ⟨'-', by simp, by simp⟩
  have hsplitS : splitOnChar '-' (natStr d ++ "-" ++ natStr h ++ ":" ++ natStr m ++ ":" ++ natStr s) =
      [⟨natToChars d⟩, ⟨natToChars h ++ ':' :: (natToChars m ++ ':' :: natToChars s)⟩] := by
    unfold splitOnChar
    rw [hdata, splitChars_append_sep _ (fun x hx => (natToChars_clean d x hx).2),
      splitChars_of_not_mem (timeChars_no_dash h m s)]
    rfl
  have hday : dayValue (natStr d ++ "-" ++ natStr h ++ ":" ++ natStr m ++ ":" ++ natStr s) = (d : Int) := by
    unfold dayValue
    rw [if_pos hcon, hsplitS]
    exact parseGoIntChars_digits d
  have hstrip : dayStripped (natStr d ++ "-" ++ natStr h ++ ":" ++ natStr m ++ ":" ++ natStr s) =
      ⟨natToChars h ++ ':' :: (natToChars m ++ ':' :: natToChars s)⟩ := by
    unfold dayStripped
    rw [if_pos hcon, hsplitS]
    simp
  have hcolonS : splitOnChar ':'
        (⟨natToChars h ++ ':' :: (natToChars m ++ ':' :: natToChars s)⟩ : String) =
      [⟨natToChars h⟩, ⟨natToChars m⟩, ⟨natToChars s⟩] := by
    unfold splitOnChar
    rw [show ((⟨natToChars h ++ ':' :: (natToChars m ++ ':' :: natToChars s)⟩ : String)).data =
      natToChars h ++ ':' :: (natToChars m ++ ':' :: natToChars s) from rfl]
    rw [splitChars_colon3 _ _ _ (fun x hx => (natToChars_clean h x hx).1)
      (fun x hx => (natToChars_clean m x hx).1) (fun x hx => (natToChars_clean s x hx).1)]
    rfl
  simp only [formatUptime]
  rw [hday, hstrip, hcolonS]
  simp only [List.length_cons, List.length_nil, List.getD_cons_zero, List.getD_cons_succ]
  rw [if_neg (by omega : ¬(0 + 1 + 1 + 1 = 2))]
  simp only [if_true]
  rw [show parseGoInt ⟨natToChars h⟩ = (h : Int) from parseGoIntChars_digits h,
    show parseGoInt ⟨natToChars m⟩ = (m : Int) from parseGoIntChars_digits m,
    show parseGoInt ⟨natToChars s⟩ = (s : Int) from parseGoIntChars_digits s]

theorem formatUptime_hms (h m s : Nat) :
    formatUptime (natStr h ++ ":" ++ natStr m ++ ":" ++ natStr s) =
      uptimeLabel 0 h m s := by
  have hdata : (natStr h ++ ":" ++ natStr m ++ ":" ++ natStr s).data =
      natToChars h ++ ':' :: (natToChars m ++ ':' :: natToChars s) := by
    simp [natStr, String.data_append]
  have hcon : containsChar (natStr h ++ ":" ++ natStr m ++ ":" ++ natStr s) '-' = false := by
    unfold containsChar
    rw [hdata, List.any_eq_false]
    intro x hx
    simp only [decide_eq_true_eq]
    exact timeChars_no_dash h m s x hx
  have hday : dayValue (natStr h ++ ":" ++ natStr m ++ ":" ++ natStr s) = 0 := by
    unfold dayValue
    rw [if_neg (by rw [hcon]; simp)]
  have hstrip : dayStripped (natStr h ++ ":" ++ natStr m ++ ":" ++ natStr s) =
      natStr h ++ ":" ++ natStr m ++ ":" ++ natStr s := by
    unfold dayStripped
    rw [if_neg (by rw [hcon]; simp)]
  have hcolonS : splitOnChar ':' (natStr h ++ ":" ++ natStr m ++ ":" ++ natStr s) =
      [⟨natToChars h⟩, ⟨natToChars m⟩, ⟨natToChars s⟩] := by
    unfold splitOnChar
    rw [hdata]
    rw [splitChars_colon3 _ _ _ (fun x hx => (natToChars_clean h x hx).1)
      (fun x hx => (natToChars_clean m x hx).1) (fun x hx => (natToChars_clean s x hx).1)]
    rfl
  simp only [formatUptime]
  rw [hday, hstrip, hcolonS]
  simp only [List.length_cons, List.length_nil, List.getD_cons_zero, List.getD_cons_succ]
  rw [if_neg (by omega : ¬(0 + 1 + 1 + 1 = 2))]
  simp only [if_true]
  rw [show parseGoInt ⟨natToChars h⟩ = (h : Int) from parseGoIntChars_digits h,
    show parseGoInt ⟨natToChars m⟩ = (m : Int) from parseGoIntChars_digits m,
    show parseGoInt ⟨natToChars s⟩ = (s : Int) from parseGoIntChars_digits s]

theorem formatUptime_ms (m s : Nat) :
    formatUptime (natStr m ++ ":" ++ natStr s) = uptimeLabel 0 0 m s := by
  have hdata : (natStr m ++ ":" ++ natStr s).data = natToChars m ++ ':' :: natToChars s := by
    simp [natStr, String.data_append]
  have hnod : ∀ x ∈ natToChars m ++ ':' :: natToChars s, x ≠ '-' := by
    intro x hx
    rcases List.mem_append.mp hx with h1 | h2
    · exact (natToChars_clean m x h1).2
    · rcases List.mem_cons.mp h2 with rfl | h3
      · decide
      · exact (natToChars_clean s x h3).2
  have hcon : containsChar (natStr m ++ ":" ++ natStr s) '-' = false := by
    unfold containsChar
    rw [hdata, List.any_eq_false]
    intro x hx
    simp only [decide_eq_true_eq]
    exact hnod x hx
  have hday : dayValue (natStr m ++ ":" ++ natStr s) = 0 := by
    unfold dayValue
    rw [if_neg (by rw [hcon]; simp)]
  have hstrip : dayStripped (natStr m ++ ":" ++ natStr s) = natStr m ++ ":" ++ natStr s := by
    unfold dayStripped
    rw [if_neg (by rw [hcon]; simp)]
  have hcolonS : splitOnChar ':' (natStr m ++ ":" ++ natStr s) =
      [⟨natToChars m⟩, ⟨natToChars s⟩] := by
    unfold splitOnChar
    rw [hdata]
    rw [splitChars_colon2 _ _ (fun x hx => (natToChars_clean m x hx).1)
      (fun x hx => (natToChars_clean s x hx).1)]
    rfl
  simp only [formatUptime]
  rw [hday, hstrip, hcolonS]
  simp only [List.length_cons, List.length_nil, List.getD_cons_zero, List.getD_cons_succ]
  simp only [if_true]
  rw [show parseGoInt ⟨natToChars m⟩ = (m : Int) from parseGoIntChars_digits m,
    show parseGoInt ⟨natToChars s⟩ = (s : Int) from parseGoIntChars_digits s]

/-- C4: for well-formed elapsed-time inputs, `formatUptime` picks the
minutes label below three total hours, the integer-division days label
from 200 total hours on, and the hours label otherwise, and returns
totalSeconds = days·86400 + hours·3600 + minutes·60 + seconds; the four
boundary evaluations of the claim hold. -/
theorem formatUptime_tiers_and_boundaries :
    (∀ d h m s : Nat,
      formatUptime (natStr d ++ "-" ++ natStr h ++ ":" ++ natStr m ++ ":" ++ natStr s) =
        (uptimeTierLabel ((d : Int) * 24 + h) m,
          (d : Int) * 86400 + (h : Int) * 3600 + (m : Int) * 60 + s)) ∧
    (∀ h m s : Nat,
      formatUptime (natStr h ++ ":" ++ natStr m ++ ":" ++ natStr s) =
        (uptimeTierLabel (h : Int) m, (h : Int) * 3600 + (m : Int) * 60 + s)) ∧
    (∀ m s : Nat,
      formatUptime (natStr m ++ ":" ++ natStr s) =
        (uptimeTierLabel 0 m, (m : Int) * 60 + s)) ∧
    formatUptime "2:59:59" = ("179m", 10799) ∧
    formatUptime "3:00:00" = ("3h", 10800) ∧
    formatUptime "199:00:00" = ("199h", 716400) ∧
    formatUptime "200:00:00" = ("8d", 720000) := by
  refine ⟨?_, ?_, ?_, by decide, by decide, by decide, by decide⟩
  · intro d h m s
    rw [formatUptime_dhms, uptimeLabel_eq_tier]
  · intro h m s
    rw [formatUptime_hms, uptimeLabel_eq_tier]
    norm_num
  · intro m s
    rw [formatUptime_ms, uptimeLabel_eq_tier]
    norm_num

/-- C5 counterexample: on a malformed remainder that carries a `days-`
prefix, `formatUptime` does not return the input unchanged — it
returns the remainder after the day strip. -/
theorem formatUptime_day_passthrough_counterexample :
    formatUptime "5-xyz" = ("xyz", 0) ∧ formatUptime "5-xyz" ≠ ("5-xyz", 0) := by
  decide

/-- C5 amended: when the colon-split of the remainder after the
optional day strip yields neither 2 nor 3 groups, `formatUptime`
returns that remainder (not necessarily the whole input) paired with
0 seconds; when the input has no dash the remainder is the input
itself, so the unchanged-input passthrough holds exactly for dash-free
inputs. -/
theorem formatUptime_malformed_passthrough (e : String)
    (h2 : (splitOnChar ':' (dayStripped e)).length ≠ 2)
    (h3 : (splitOnChar ':' (dayStripped e)).length ≠ 3) :
    formatUptime e = (dayStripped e, 0) ∧
      (containsChar e '-' = false → dayStripped e = e) := by
  constructor
  · unfold formatUptime
    rw [if_neg h2, if_neg h3]
  · intro hc
    unfold dayStripped
    rw [hc]
    simp

/-- C5 witness: the amended passthrough at the concrete malformed
input "ab". -/
theorem formatUptime_malformed_passthrough_witness :
    formatUptime "ab" = (dayStripped "ab", 0) ∧
      (containsChar "ab" '-' = false → dayStripped "ab" = "ab") :=
  formatUptime_malformed_passthrough "ab" (by decide) (by decide)

/-- The record built per listening line by `parseOutput` and enriched
by the scan loop of `main` (`PortInfo` in `main.go`). -/
structure PortInfo where
  port : Int
  pid : String
  command : String
  address : String
  user : String
  path : String
  uptime : String
  uptimeSeconds : Int
deriving DecidableEq, Repr

/-- Whitespace class of the `\s` escape in Go's regexp (RE2). -/
def wsRe (c : Char) : Bool :=
  c.toNat = 9 || c.toNat = 10 || c.toNat = 12 || c.toNat = 13 || c.toNat = 32

/-- Word accumulator for `goFieldsC`. -/
def goFieldsAcc : List Char → List Char → List (List Char)
  | [], acc => if acc.isEmpty then [] else [acc.reverse]
  | c :: cs, acc =>
    if goSpace c then
      if acc.isEmpty then goFieldsAcc cs [] else acc.reverse :: goFieldsAcc cs []
    else goFieldsAcc cs (c :: acc)

/-- Split into maximal non-whitespace runs; mirrors `strings.Fields`. -/
def goFieldsC (l : List Char) : List (List Char) :=
  goFieldsAcc l []

/-- Try the pattern `:(\d+)\s+\(LISTEN\)` anchored at the head of the
character list; return the digit capture on success.  Because the
digit, whitespace and parenthesis classes are disjoint, RE2's
leftmost-first match coincides with this greedy reading. -/
def matchPortAt (l : List Char) : Option (List Char) :=
  match l with
  | [] => none
  | c :: rest =>
    if c = ':' then
      if (rest.takeWhile isDigitC).isEmpty then none
      else
        if ((rest.dropWhile isDigitC).takeWhile wsRe).isEmpty then none
        else
          if ("(LISTEN)".data).isPrefixOf ((rest.dropWhile isDigitC).dropWhile wsRe) then
            some (rest.takeWhile isDigitC)
          else none
    else none

/-- Leftmost match of the port regex in a line
(`regexp.FindStringSubmatch` for `:(\d+)\s+\(LISTEN\)`). -/
def findPortDigits : List Char → Option (List Char)
  | [] => none
  | c :: cs =>
    match matchPortAt (c :: cs) with
    | some ds => some ds
    | none => findPortDigits cs

/-- Substring test (`strings.Contains`). -/
def hasSub (sub : List Char) : List Char → Bool
  | [] => sub.isEmpty
  | c :: cs => sub.isPrefixOf (c :: cs) || hasSub sub cs

/-- Model of `strconv.Atoi` on the all-digit regex capture: its value,
unless it overflows a 64-bit int. -/
def goAtoi (ds : List Char) : Option Int :=
  if valOfDigits ds ≤ 9223372036854775807 then some ((valOfDigits ds : Int)) else none

/-- Per-line step of `parseOutput`: require the LISTEN marker, at
least ten whitespace-separated fields, a port capture that parses; the
record takes command, pid, user and address from fields 0, 1, 2 and 8,
with enrichment fields left at their zero values. -/
def parseLine (line : String) : Option PortInfo :=
  if hasSub ("LISTEN".data) line.data = false then none
  else if (goFieldsC line.data).length < 10 then none
  else
    match findPortDigits line.data with
    | none => none
    | some ds =>
      match goAtoi ds with
      | none => none
      | some port =>
        some ⟨port, ⟨(goFieldsC line.data).getD 1 []⟩, ⟨(goFieldsC line.data).getD 0 []⟩,
          ⟨(goFieldsC line.data).getD 8 []⟩, ⟨(goFieldsC line.data).getD 2 []⟩, "", "", 0⟩

/-- The parse-time dedup key `fmt.Sprintf("%d:%s", port, fields[1])`. -/
def recKeyStr (r : PortInfo) : String :=
  intToString r.port ++ ":" ++ r.pid

/-- `parseOutput`'s loop over lines with the `seen` key set. -/
def parseOutputAux : List String → List String → List PortInfo
  | [], _ => []
  | line :: rest, seen =>
    match parseLine line with
    | none => parseOutputAux rest seen
    | some r =>
      if recKeyStr r ∈ seen then parseOutputAux rest seen
      else r :: parseOutputAux rest (recKeyStr r :: seen)

/-- Model of `parseOutput` (`main.go`): split the raw text on
newlines, parse each listening line, and drop records whose
(port, pid) key was already seen. -/
def parseOutput (s : String) : List PortInfo :=
  parseOutputAux (splitOnChar '\n' s) []

/-- The same parse without the dedup step, written from the claim's
words: the sequence of records the lines yield, in input-line order. -/
def rawParse (s : String) : List PortInfo :=
  (splitOnChar '\n' s).filterMap parseLine

theorem parseOutputAux_key_not_seen :
    ∀ (lines : List String) (seen : List String) (r : PortInfo),
      r ∈ parseOutputAux lines seen → recKeyStr r ∉ seen := by
  intro lines
  induction lines with
  | nil => intro seen r hr; simp [parseOutputAux] at hr
  | cons line rest ih =>
    intro seen r hr
    simp only [parseOutputAux] at hr
    rcases hpl : parseLine line with _ | q
    · rw [hpl] at hr
      exact ih seen r hr
    · rw [hpl] at hr
      dsimp only at hr
      by_cases hq : recKeyStr q ∈ seen
      · rw [if_pos hq] at hr
        exact ih seen r hr
      · rw [if_neg hq] at hr
        rcases List.mem_cons.mp hr with rfl | hr2
        · exact hq
        · exact fun hin => (ih (recKeyStr q :: seen) r hr2) (List.mem_cons_of_mem _ hin)

theorem parseOutputAux_sublist :
    ∀ (lines : List String) (seen : List String),
      (parseOutputAux lines seen).Sublist (lines.filterMap parseLine) := by
  intro lines
  induction lines with
  | nil => intro seen; simp [parseOutputAux]
  | cons line rest ih =>
    intro seen
    simp only [parseOutputAux, List.filterMap_cons]
    rcases hpl : parseLine line with _ | q
    · exact ih seen
    · dsimp only
      by_cases hq : recKeyStr q ∈ seen
      · rw [if_pos hq]
        exact (ih seen).cons q
      · rw [if_neg hq]
        exact (ih (recKeyStr q :: seen)).cons₂ q

theorem parseOutputAux_pairwise :
    ∀ (lines : List String) (seen : List String),
      (parseOutputAux lines seen).Pairwise (fun a b => recKeyStr a ≠ recKeyStr b) := by
  intro lines
  induction lines with
  | nil => intro seen; simp [parseOutputAux]
  | cons line rest ih =>
    intro seen
    simp only [parseOutputAux]
    rcases hpl : parseLine line with _ | q
    · exact ih seen
    · dsimp only
      by_cases hq : recKeyStr q ∈ seen
      · rw [if_pos hq]
        exact ih seen
      · rw [if_neg hq]
        refine List.Pairwise.cons ?_ (ih (recKeyStr q :: seen))
        intro b hb he
        exact (parseOutputAux_key_not_seen rest _ b hb) (by rw [← he]; simp)

theorem parseOutputAux_first :
    ∀ (lines : List String) (seen : List String) (r : PortInfo),
      r ∈ parseOutputAux lines seen →
      ((lines.filterMap parseLine).filter
        (fun x => decide (recKeyStr x = recKeyStr r))).head? = some r := by
  intro lines
  induction lines with
  | nil => intro seen r hr; simp [parseOutputAux] at hr
  | cons line rest ih =>
    intro seen r hr
    simp only [parseOutputAux] at hr
    simp only [List.filterMap_cons]
    rcases hpl : parseLine line with _ | q
    · rw [hpl] at hr
      exact ih seen r hr
    · rw [hpl] at hr
      dsimp only at hr ⊢
      by_cases hq : recKeyStr q ∈ seen
      · rw [if_pos hq] at hr
        have hne : recKeyStr q ≠ recKeyStr r := by
          intro he
          exact (parseOutputAux_key_not_seen rest seen r hr) (he ▸ hq)
        rw [List.filter_cons, if_neg (by simpa using hne)]
        exact ih seen r hr
      · rw [if_neg hq] at hr
        rcases List.mem_cons.mp hr with rfl | hr2
        · rw [List.filter_cons, if_pos (by simp)]
          simp
        · have hne : recKeyStr q ≠ recKeyStr r := by
            intro he
            exact (parseOutputAux_key_not_seen rest _ r hr2) (by rw [← he]; simp)
          rw [List.filter_cons, if_neg (by simpa using hne)]
          exact ih (recKeyStr q :: seen) r hr2

theorem parseOutputAux_complete :
    ∀ (lines : List String) (seen : List String) (x : PortInfo),
      x ∈ lines.filterMap parseLine →
      recKeyStr x ∈ seen ∨ ∃ r ∈ parseOutputAux lines seen, recKeyStr r = recKeyStr x := by
  intro lines
  induction lines with
  | nil => intro seen x hx; simp at hx
  | cons line rest ih =>
    intro seen x hx
    simp only [List.filterMap_cons] at hx
    simp only [parseOutputAux]
    rcases hpl : parseLine line with _ | q
    · rw [hpl] at hx
      exact ih seen x hx
    · rw [hpl] at hx
      dsimp only at hx ⊢
      by_cases hq : recKeyStr q ∈ seen
      · rw [if_pos hq]
        rcases List.mem_cons.mp hx with rfl | hx2
        · exact Or.inl hq
        · exact ih seen x hx2
      · rw [if_neg hq]
        rcases List.mem_cons.mp hx with rfl | hx2
        · exact Or.inr ⟨x, by simp, rfl⟩
        · rcases ih (recKeyStr q :: seen) x hx2 with hin | ⟨r, hrmem, hrk⟩
          · rcases List.mem_cons.mp hin with he | hseen
            · exact Or.inr ⟨q, by simp, he.symm⟩
            · exact Or.inl hseen
          · exact Or.inr ⟨r, List.mem_cons_of_mem q hrmem, hrk⟩

theorem append_sep_inj {a c : List Char} {b d : List Char}
    (ha : ∀ x ∈ a, x ≠ ':') (hc : ∀ x ∈ c, x ≠ ':')
    (h : a ++ ':' :: b = c ++ ':' :: d) : a = c ∧ b = d := by
  induction a generalizing c with
  | nil =>
    cases c with
    | nil => simpa using h
    | cons y ys =>
      simp only [List.nil_append, List.cons_append, List.cons.injEq] at h
      exact absurd h.1.symm (hc y (by simp))
  | cons x xs ih =>
    cases c with
    | nil =>
      simp only [List.nil_append, List.cons_append, List.cons.injEq] at h
      exact absurd h.1 (ha x (by simp))
    | cons y ys =>
      simp only [List.cons_append, List.cons.injEq] at h
      obtain ⟨rfl, h2⟩ := h
      have := ih (fun z hz => ha z (by simp [hz])) (fun z hz => hc z (by simp [hz])) h2
      exact ⟨by rw [this.1], this.2⟩

theorem key_pair_iff {r x : PortInfo} (hr : 0 ≤ r.port) (hx : 0 ≤ x.port) :
    recKeyStr r = recKeyStr x ↔ (r.port = x.port ∧ r.pid = x.pid) := by
  constructor
  · intro h
    have hdata := congrArg String.data h
    unfold recKeyStr intToString at hdata
    rw [if_neg (by omega), if_neg (by omega)] at hdata
    simp only [String.data_append,
      show (":" : String).data = [':'] from rfl, List.append_assoc,
      List.singleton_append] at hdata
    have hcln : ∀ n : Nat, ∀ z ∈ natToChars n, z ≠ ':' :=
      fun n z hz => (natToChars_clean n z hz).1
    have hinj := append_sep_inj (hcln _) (hcln _) hdata
    constructor
    · have hv := congrArg valOfDigits hinj.1
      rw [valOfDigits_natToChars, valOfDigits_natToChars] at hv
      omega
    · exact congrArg (fun l => (⟨l⟩ : String)) hinj.2
  · rintro ⟨h1, h2⟩
    unfold recKeyStr
    rw [h1, h2]

theorem parseLine_bounds {line : String} {r : PortInfo}
    (h : parseLine line = some r) :
    0 ≤ r.port ∧ r.port ≤ 9223372036854775807 := by
  unfold parseLine at h
  split at h
  · exact absurd h (by simp)
  · split at h
    · exact absurd h (by simp)
    · split at h
      · exact absurd h (by simp)
      · rename_i ds hds
        rcases hat : goAtoi ds with _ | port
        · rw [hat] at h
          exact absurd h (by simp)
        · rw [hat] at h
          simp only [Option.some.injEq] at h
          subst h
          unfold goAtoi at hat
          split at hat
          · rename_i hle
            simp only [Option.some.injEq] at hat
            subst hat
            constructor
            · show (0 : Int) ≤ ((valOfDigits ds : Nat) : Int)
              positivity
            · show ((valOfDigits ds : Nat) : Int) ≤ 9223372036854775807
              exact_mod_cast hle
          · exact absurd hat (by simp)

theorem rawParse_nonneg (s : String) :
    ∀ x ∈ rawParse s, 0 ≤ x.port ∧ x.port ≤ 9223372036854775807 := by
  intro x hx
  unfold rawParse at hx
  rcases List.mem_filterMap.mp hx with ⟨line, _, hline⟩
  exact parseLine_bounds hline

/-- C2: parse-time deduplication — the parsed sequence has at most one
record per (port, pid) key, is a subsequence of the undeduplicated
line-order parse (so records keep input-line order), the record kept
for a key is the one built from the first line yielding that key, and
every key the raw text yields is represented. -/
theorem parseOutput_dedup_correct (raw : String) :
    ((parseOutput raw).map (fun r => (r.port, r.pid))).Nodup ∧
    (parseOutput raw).Sublist (rawParse raw) ∧
    (∀ r ∈ parseOutput raw,
      ((rawParse raw).filter
        (fun x => decide (x.port = r.port ∧ x.pid = r.pid))).head? = some r) ∧
    (∀ x ∈ rawParse raw, ∃ r ∈ parseOutput raw, r.port = x.port ∧ r.pid = x.pid) := by
  have hsub : (parseOutput raw).Sublist (rawParse raw) :=
    parseOutputAux_sublist (splitOnChar '\n' raw) []
  have hnn : ∀ x ∈ parseOutput raw, 0 ≤ x.port :=
    fun x hx => (rawParse_nonneg raw x (hsub.subset hx)).1
  refine ⟨?_, hsub, ?_, ?_⟩
  · show ((parseOutput raw).map (fun r => (r.port, r.pid))).Pairwise (fun a b => a ≠ b)
    refine List.Pairwise.map _ ?_ (parseOutputAux_pairwise (splitOnChar '\n' raw) [])
    intro a b hne heq
    simp only [Prod.mk.injEq] at heq
    exact hne (by unfold recKeyStr; rw [heq.1, heq.2])
  · intro r hr
    have hfirst := parseOutputAux_first (splitOnChar '\n' raw) [] r hr
    have hcongr : (rawParse raw).filter
          (fun x => decide (x.port = r.port ∧ x.pid = r.pid)) =
        (rawParse raw).filter (fun x => decide (recKeyStr x = recKeyStr r)) := by
      refine List.filter_congr ?_
      intro x hx
      rw [decide_eq_decide]
      exact (key_pair_iff (rawParse_nonneg raw x hx).1 (hnn r hr)).symm
    rw [hcongr]
    exact hfirst
  · intro x hx
    rcases parseOutputAux_complete (splitOnChar '\n' raw) [] x hx with hin | ⟨r, hrmem, hrk⟩
    · simp at hin
    · refine ⟨r, hrmem, ?_⟩
      exact (key_pair_iff (hnn r hrmem) (rawParse_nonneg raw x hx).1).mp hrk

/-- C2 witness: the first-line-wins property applied at a concrete
raw listing line. -/
theorem parseOutput_dedup_correct_witness :
    ((rawParse "x p u 4 5 6 7 8 :1 (LISTEN)").filter
      (fun x => decide (x.port = (1 : Int) ∧ x.pid = "p"))).head? =
      some ⟨1, "p", "x", ":1", "u", "", "", 0⟩ :=
  (parseOutput_dedup_correct "x p u 4 5 6 7 8 :1 (LISTEN)").2.2.1
    ⟨1, "p", "x", ":1", "u", "", "", 0⟩ (by decide)

/-- Enrichment of one record by the resolved metadata of its process:
working directory, uptime label and uptime seconds from the two
external lookups. -/
def applyEnrich (wd : String → String) (up : String → String × Int)
    (r : PortInfo) : PortInfo :=
  ⟨r.port, r.pid, r.command, r.address, r.user, wd r.pid, (up r.pid).1, (up r.pid).2⟩

/-- Association-list lookup modelling Go map indexing. -/
def alookup {β : Type} : List (String × β) → String → Option β
  | [], _ => none
  | (k, v) :: rest, key => if k = key then some v else alookup rest key

/-- Caches of the enrichment loop in `main` (`pathCache`,
`uptimeCache`, `uptimeSecondsCache`), together with the trace of
external lookups issued (one entry per `getWorkingDirectory` call and
one per `getProcessUptime` call). -/
structure EnrichState where
  pathCache : List (String × String)
  uptimeCache : List (String × String)
  uptimeSecCache : List (String × Int)
  wdCalls : List String
  upCalls : List String
deriving Repr

/-- One iteration of the enrichment loop: on a path-cache hit reuse
all three cached values (Go map indexing yields the zero value on a
miss); otherwise issue both lookups, store them, and log the calls. -/
def enrichStep (wd : String → String) (up : String → String × Int)
    (st : EnrichState) (r : PortInfo) : PortInfo × EnrichState :=
  match alookup st.pathCache r.pid with
  | some cachedPath =>
    (⟨r.port, r.pid, r.command, r.address, r.user, cachedPath,
      (alookup st.uptimeCache r.pid).getD "",
      (alookup st.uptimeSecCache r.pid).getD 0⟩, st)
  | none =>
    (⟨r.port, r.pid, r.command, r.address, r.user, wd r.pid,
      (up r.pid).1, (up r.pid).2⟩,
      ⟨(r.pid, wd r.pid) :: st.pathCache, (r.pid, (up r.pid).1) :: st.uptimeCache,
        (r.pid, (up r.pid).2) :: st.uptimeSecCache,
        st.wdCalls ++ [r.pid], st.upCalls ++ [r.pid]⟩)

/-- The enrichment loop of `main` over the parsed records. -/
def enrichLoop (wd : String → String) (up : String → String × Int) :
    List PortInfo → EnrichState → List PortInfo × EnrichState
  | [], st => ([], st)
  | r :: rest, st =>
    let p := enrichStep wd up st r
    let q := enrichLoop wd up rest p.2
    (p.1 :: q.1, q.2)

/-- Enrichment pass starting from empty caches. -/
def enrich (wd : String → String) (up : String → String × Int)
    (ports : List PortInfo) : List PortInfo × EnrichState :=
  enrichLoop wd up ports ⟨[], [], [], [], []⟩

/-- Invariant of the enrichment loop: the call trace is duplicate-free,
both lookups are issued together, and each cache holds exactly the
oracle value for the pids traced so far. -/
def cacheGood (wd : String → String) (up : String → String × Int)
    (st : EnrichState) : Prop :=
  st.wdCalls.Nodup ∧ st.upCalls = st.wdCalls ∧
  (∀ pid, alookup st.pathCache pid =
    if pid ∈ st.wdCalls then some (wd pid) else none) ∧
  (∀ pid, alookup st.uptimeCache pid =
    if pid ∈ st.wdCalls then some ((up pid).1) else none) ∧
  (∀ pid, alookup st.uptimeSecCache pid =
    if pid ∈ st.wdCalls then some ((up pid).2) else none)

theorem enrichLoop_cons (wd : String → String) (up : String → String × Int)
    (r : PortInfo) (rest : List PortInfo) (st : EnrichState) :
    enrichLoop wd up (r :: rest) st =
      ((enrichStep wd up st r).1 :: (enrichLoop wd up rest (enrichStep wd up st r).2).1,
        (enrichLoop wd up rest (enrichStep wd up st r).2).2) := rfl

theorem enrichLoop_spec (wd : String → String) (up : String → String × Int) :
    ∀ (ports : List PortInfo) (st : EnrichState), cacheGood wd up st →
      (enrichLoop wd up ports st).1 = ports.map (applyEnrich wd up) ∧
      cacheGood wd up (enrichLoop wd up ports st).2 ∧
      (∀ pid, pid ∈ (enrichLoop wd up ports st).2.wdCalls ↔
        pid ∈ st.wdCalls ∨ pid ∈ ports.map (fun r => r.pid)) := by
  intro ports
  induction ports with
  | nil =>
    intro st hst
    refine ⟨rfl, hst, ?_⟩
    intro pid
    simp [enrichLoop]
  | cons r rest ih =>
    intro st hst
    obtain ⟨hnd, hup, hpc, huc, hsc⟩ := hst
    rw [enrichLoop_cons]
    rcases hlk : alookup st.pathCache r.pid with _ | cp
    · have hnotmem : r.pid ∉ st.wdCalls := by
        intro hmem
        rw [hpc r.pid, if_pos hmem] at hlk
        exact absurd hlk (by simp)
      have hstep : enrichStep wd up st r =
          (applyEnrich wd up r,
            ⟨(r.pid, wd r.pid) :: st.pathCache, (r.pid, (up r.pid).1) :: st.uptimeCache,
              (r.pid, (up r.pid).2) :: st.uptimeSecCache,
              st.wdCalls ++ [r.pid], st.upCalls ++ [r.pid]⟩) := by
        simp only [enrichStep, hlk]
        rfl
      rw [hstep]
      have hst1 : cacheGood wd up
          ⟨(r.pid, wd r.pid) :: st.pathCache, (r.pid, (up r.pid).1) :: st.uptimeCache,
            (r.pid, (up r.pid).2) :: st.uptimeSecCache,
            st.wdCalls ++ [r.pid], st.upCalls ++ [r.pid]⟩ := by
        refine ⟨?_, by rw [hup], ?_, ?_, ?_⟩
        · refine List.Nodup.append hnd (by simp) ?_
          intro a ha hb
          rw [List.mem_singleton] at hb
          subst hb
          exact hnotmem ha
        · intro pid
          show (if r.pid = pid then some (wd r.pid) else alookup st.pathCache pid) = _
          by_cases he : r.pid = pid
          · subst he
            rw [if_pos rfl, if_pos (by simp)]
          · rw [if_neg he, hpc pid]
            by_cases hm : pid ∈ st.wdCalls
            · rw [if_pos hm, if_pos (by simp [hm])]
            · rw [if_neg hm, if_neg ?_]
              simp only [List.mem_append, List.mem_singleton]
              intro hor
              rcases hor with h | h
              · exact hm h
              · exact he h.symm
        · intro pid
          show (if r.pid = pid then some ((up r.pid).1) else alookup st.uptimeCache pid) = _
          by_cases he : r.pid = pid
          · subst he
            rw [if_pos rfl, if_pos (by simp)]
          · rw [if_neg he, huc pid]
            by_cases hm : pid ∈ st.wdCalls
            · rw [if_pos hm, if_pos (by simp [hm])]
            · rw [if_neg hm, if_neg ?_]
              simp only [List.mem_append, List.mem_singleton]
              intro hor
              rcases hor with h | h
              · exact hm h
              · exact he h.symm
        · intro pid
          show (if r.pid = pid then some ((up r.pid).2) else alookup st.uptimeSecCache pid) = _
          by_cases he : r.pid = pid
          · subst he
            rw [if_pos rfl, if_pos (by simp)]
          · rw [if_neg he, hsc pid]
            by_cases hm : pid ∈ st.wdCalls
            · rw [if_pos hm, if_pos (by simp [hm])]
            · rw [if_neg hm, if_neg ?_]
              simp only [List.mem_append, List.mem_singleton]
              intro hor
              rcases hor with h | h
              · exact hm h
              · exact he h.symm
      obtain ⟨hout, hgood, hmem⟩ := ih _ hst1
      refine ⟨?_, hgood, ?_⟩
      · simp only [List.map_cons]
        rw [hout]
      · intro pid
        rw [hmem pid]
        simp only [List.mem_append, List.mem_singleton, List.map_cons, List.mem_cons]
        tauto
    · have hmemr : r.pid ∈ st.wdCalls := by
        by_cases hm : r.pid ∈ st.wdCalls
        · exact hm
        · rw [hpc r.pid, if_neg hm] at hlk
          exact absurd hlk (by simp)
      have hcp : cp = wd r.pid := by
        have h2 := hpc r.pid
        rw [hlk, if_pos hmemr] at h2
        exact Option.some.inj h2
      have hstep : enrichStep wd up st r = (applyEnrich wd up r, st) := by
        simp only [enrichStep, hlk]
        rw [huc r.pid, if_pos hmemr, hsc r.pid, if_pos hmemr, hcp]
        simp [applyEnrich]
      rw [hstep]
      obtain ⟨hout, hgood, hmem⟩ := ih st ⟨hnd, hup, hpc, huc, hsc⟩
      refine ⟨?_, hgood, ?_⟩
      · simp only [List.map_cons]
        rw [hout]
      · intro pid
        rw [hmem pid]
        simp only [List.map_cons, List.mem_cons]
        constructor
        · intro h
          rcases h with h | h
          · exact Or.inl h
          · exact Or.inr (Or.inr h)
        · intro h
          rcases h with h | h | h
          · exact Or.inl h
          · exact Or.inl (h ▸ hmemr)
          · exact Or.inr h

/-- C3: resolver memoization — over one enrichment pass each distinct
pid triggers exactly one working-directory lookup and exactly one
uptime lookup (and pids absent from the input trigger none), and every
output record carries exactly the (path, uptime, uptimeSeconds) triple
those single lookups return. -/
theorem resolver_memoization (wd : String → String) (up : String → String × Int)
    (ports : List PortInfo) :
    (∀ pid, (enrich wd up ports).2.wdCalls.count pid =
      if pid ∈ ports.map (fun r => r.pid) then 1 else 0) ∧
    (∀ pid, (enrich wd up ports).2.upCalls.count pid =
      if pid ∈ ports.map (fun r => r.pid) then 1 else 0) ∧
    (enrich wd up ports).1 = ports.map (applyEnrich wd up) := by
  unfold enrich
  have hinit : cacheGood wd up ⟨[], [], [], [], []⟩ := by
    refine ⟨List.nodup_nil, rfl, ?_, ?_, ?_⟩ <;> intro pid <;> simp [alookup]
  obtain ⟨hout, ⟨hnd, hupeq, _, _, _⟩, hmem⟩ :=
    enrichLoop_spec wd up ports ⟨[], [], [], [], []⟩ hinit
  have hcount : ∀ pid,
      (enrichLoop wd up ports ⟨[], [], [], [], []⟩).2.wdCalls.count pid =
        if pid ∈ ports.map (fun r => r.pid) then 1 else 0 := by
    intro pid
    by_cases hm : pid ∈ ports.map (fun r => r.pid)
    · rw [if_pos hm]
      exact List.count_eq_one_of_mem hnd ((hmem pid).mpr (Or.inr hm))
    · rw [if_neg hm]
      refine List.count_eq_zero_of_not_mem ?_
      intro hin
      rcases (hmem pid).mp hin with h | h
      · simp at h
      · exact hm h
  refine ⟨hcount, ?_, hout⟩
  intro pid
  rw [hupeq]
  exact hcount pid

/-- Model of `truncate` (`main.go`) over the bytes of a Go string:
return the string unchanged when it fits, otherwise the first
`maxLen-3` bytes followed by `"..."`; `none` models the slice-bounds
panic of `s[:maxLen-3]` when `maxLen - 3` is negative. -/
def truncate (s : List UInt8) (maxLen : Int) : Option (List UInt8) :=
  if (s.length : Int) ≤ maxLen then some s
  else if maxLen - 3 < 0 then none
  else some (s.take (maxLen - 3).toNat ++ [46, 46, 46])

/-- C10: for maxLen ≥ 3, `truncate` totalises — short strings pass
through, long ones become the first maxLen-3 bytes plus "...", and the
result never exceeds maxLen bytes; for maxLen < 3 and a string longer
than maxLen the slice bound maxLen-3 is negative and the function
panics, so maxLen ≥ 3 is the precondition making the panic branch
unreachable. -/
theorem truncate_spec :
    (∀ (s : List UInt8) (maxLen : Int), 3 ≤ maxLen →
      ∃ r, truncate s maxLen = some r ∧
        ((s.length : Int) ≤ maxLen → r = s) ∧
        (maxLen < (s.length : Int) →
          r = s.take (maxLen - 3).toNat ++ [46, 46, 46]) ∧
        (r.length : Int) ≤ maxLen) ∧
    (∀ (s : List UInt8) (maxLen : Int), maxLen < 3 → maxLen < (s.length : Int) →
      truncate s maxLen = none) := by
  constructor
  · intro s maxLen h3
    by_cases hfit : (s.length : Int) ≤ maxLen
    · refine ⟨s, ?_, fun _ => rfl, fun hlong => absurd hfit (by omega), hfit⟩
      unfold truncate
      rw [if_pos hfit]
    · have hlong : maxLen < (s.length : Int) := by omega
      refine ⟨s.take (maxLen - 3).toNat ++ [46, 46, 46], ?_, fun hf => absurd hf hfit,
        fun _ => rfl, ?_⟩
      · unfold truncate
        rw [if_neg hfit, if_neg (by omega)]
      · rw [List.length_append, List.length_take]
        have htk : min (maxLen - 3).toNat s.length = (maxLen - 3).toNat := by
          apply Nat.min_eq_left
          omega
        rw [htk]
        simp only [List.length_cons, List.length_nil]
        omega
  · intro s maxLen h3 hlong
    unfold truncate
    rw [if_neg (by omega), if_pos (by omega)]

/-- C10 witness: both branches of the truncate specification at
concrete inputs. -/
theorem truncate_spec_witness :
    (∃ r, truncate [104, 105] 3 = some r ∧
      (((2 : Nat) : Int) ≤ 3 → r = [104, 105]) ∧
      ((3 : Int) < ((2 : Nat) : Int) →
        r = List.take ((3 : Int) - 3).toNat [104, 105] ++ [46, 46, 46]) ∧
      (r.length : Int) ≤ 3) ∧
    truncate [104, 105, 106] 2 = none :=
  ⟨truncate_spec.1 [104, 105] 3 (by decide), truncate_spec.2 [104, 105, 106] 2 (by decide) (by decide)⟩

/-- Reduction of Go's wrapping 64-bit `int` arithmetic: the
representative of an integer in the `int64` range [-2^63, 2^63). -/
def wrap64 (t : Int) : Int :=
  (t + 9223372036854775808) % 18446744073709551616 - 9223372036854775808

/-- `uptimeLabel` with Go's wrapping 64-bit `int` arithmetic: every
stored total is reduced into the `int64` range, as the additions and
multiplications in `formatUptime` overflow there. -/
def uptimeLabel64 (days hours minutes seconds : Int) : String × Int :=
  let totalSeconds := wrap64 (days * 86400 + hours * 3600 + minutes * 60 + seconds)
  let totalHours := wrap64 (days * 24 + hours)
  let totalMinutes := wrap64 (totalHours * 60 + minutes)
  if totalHours < 3 then (intToString totalMinutes ++ "m", totalSeconds)
  else if totalHours ≥ 200 then (intToString (totalHours.tdiv 24) ++ "d", totalSeconds)
  else (intToString totalHours ++ "h", totalSeconds)

theorem wrap64_eq_of_range (t : Int) (h0 : 0 ≤ t) (h1 : t < 9223372036854775808) :
    wrap64 t = t := by
  unfold wrap64
  rw [Int.emod_eq_of_lt (by omega) (by omega)]
  omega

theorem uptimeLabel64_agrees (d h m s : Int)
    (hs0 : 0 ≤ d * 86400 + h * 3600 + m * 60 + s)
    (hs1 : d * 86400 + h * 3600 + m * 60 + s < 9223372036854775808)
    (hh0 : 0 ≤ d * 24 + h) (hh1 : d * 24 + h < 9223372036854775808)
    (hm0 : 0 ≤ (d * 24 + h) * 60 + m)
    (hm1 : (d * 24 + h) * 60 + m < 9223372036854775808) :
    uptimeLabel64 d h m s = uptimeLabel d h m s := by
  simp only [uptimeLabel64, uptimeLabel]
  rw [wrap64_eq_of_range _ hs0 hs1, wrap64_eq_of_range _ hh0 hh1,
    wrap64_eq_of_range _ hm0 hm1]

/-- A workspace open/close event (`WorkspaceEvent` in `main.go`). -/
structure WorkspaceEvent where
  path : String
  event : String
  timestamp : Int
deriving DecidableEq, Repr

/-- Insert or replace the (first) binding of a key, as Go map
assignment does content-wise. -/
def upsert {β : Type} : List (String × β) → String → β → List (String × β)
  | [], k, v => [(k, v)]
  | (k0, v0) :: rest, k, v =>
    if k0 = k then (k0, v) :: rest else (k0, v0) :: upsert rest k v

/-- One step of the `lastEvents` reduction in `displayCursorHistory`:
keep the incoming event iff the path is unseen or the incoming
timestamp is strictly larger. -/
def lastEventsStep (m : List (String × WorkspaceEvent)) (e : WorkspaceEvent) :
    List (String × WorkspaceEvent) :=
  match alookup m e.path with
  | none => upsert m e.path e
  | some ex => if e.timestamp > ex.timestamp then upsert m e.path e else m

/-- The path-to-last-event map built by `displayCursorHistory`. -/
def lastEvents (events : List WorkspaceEvent) : List (String × WorkspaceEvent) :=
  events.foldl lastEventsStep []

/-- The `closed` list of `displayCursorHistory`: the paths whose kept
event is a close, with its timestamp. -/
def closedList (events : List WorkspaceEvent) : List (String × Int) :=
  (lastEvents events).filterMap (fun pe =>
    if pe.2.event = "close" then some (pe.1, pe.2.timestamp) else none)

/-- The first loop of `displayCursorHistory` over the (sorted) closed
list: skip currently-open paths and paths missing on disk, append the
rest, and stop at the limit. -/
def closedViewAux (openW existsD : String → Bool) (limit : Nat) :
    List (String × Int) → List String → List String
  | [], acc => acc
  | (p, _) :: rest, acc =>
    if openW p then closedViewAux openW existsD limit rest acc
    else if existsD p = false then closedViewAux openW existsD limit rest acc
    else
      if limit ≤ (acc ++ [p]).length then acc ++ [p]
      else closedViewAux openW existsD limit rest (acc ++ [p])

/-- The ledger-derived portion of the closed-workspace history view,
over an `ordered` traversal of the closed list (the source sorts with
`sort.Slice`, whose order on ties is unspecified, so the order is a
parameter here). -/
def closedView (ordered : List (String × Int)) (openW existsD : String → Bool)
    (limit : Nat) : List String :=
  closedViewAux openW existsD limit ordered []

/-- The event kept for a path: the first event, in file order, among
those with the maximal timestamp.  Written from the claim's words. -/
def IsFirstMax (l : List WorkspaceEvent) (e : WorkspaceEvent) : Prop :=
  ∃ l1 l2, l = l1 ++ e :: l2 ∧ (∀ x ∈ l1, x.timestamp < e.timestamp) ∧
    ∀ x ∈ l2, x.timestamp ≤ e.timestamp

theorem alookup_upsert_self {β : Type} (m : List (String × β)) (k : String) (v : β) :
    alookup (upsert m k v) k = some v := by
  induction m with
  | nil => simp [upsert, alookup]
  | cons kv rest ih =>
    rcases kv with ⟨k0, v0⟩
    simp only [upsert]
    by_cases he : k0 = k
    · rw [if_pos he]
      simp [alookup, he]
    · rw [if_neg he]
      simp only [alookup]
      rw [if_neg he]
      exact ih

theorem alookup_upsert_ne {β : Type} (m : List (String × β)) (k : String) (v : β)
    (k' : String) (h : k ≠ k') :
    alookup (upsert m k v) k' = alookup m k' := by
  induction m with
  | nil =>
    simp only [upsert, alookup]
    rw [if_neg h]
  | cons kv rest ih =>
    rcases kv with ⟨k0, v0⟩
    simp only [upsert]
    by_cases he : k0 = k
    · rw [if_pos he]
      simp only [alookup]
      by_cases he2 : k0 = k'
      · exact absurd (he ▸ he2) h
      · rw [if_neg he2, if_neg he2]
    · rw [if_neg he]
      simp only [alookup]
      by_cases he2 : k0 = k'
      · rw [if_pos he2, if_pos he2]
      · rw [if_neg he2, if_neg he2]
        exact ih

theorem upsert_keys_mem {β : Type} (m : List (String × β)) (k : String) (v : β) :
    ∀ x, x ∈ (upsert m k v).map Prod.fst ↔ x ∈ m.map Prod.fst ∨ x = k := by
  intro x
  induction m with
  | nil => simp [upsert]
  | cons kv rest ih =>
    rcases kv with ⟨k0, v0⟩
    simp only [upsert]
    by_cases he : k0 = k
    · rw [if_pos he]
      subst he
      simp only [List.map_cons, List.mem_cons]
      tauto
    · rw [if_neg he]
      simp only [List.map_cons, List.mem_cons, ih]
      tauto

theorem upsert_keys_nodup {β : Type} (m : List (String × β)) (k : String) (v : β)
    (hnd : (m.map Prod.fst).Nodup) : ((upsert m k v).map Prod.fst).Nodup := by
  induction m with
  | nil => simp [upsert]
  | cons kv rest ih =>
    rcases kv with ⟨k0, v0⟩
    simp only [List.map_cons, List.nodup_cons] at hnd
    simp only [upsert]
    by_cases he : k0 = k
    · rw [if_pos he]
      simp only [List.map_cons, List.nodup_cons]
      exact hnd
    · rw [if_neg he]
      simp only [List.map_cons, List.nodup_cons]
      refine ⟨?_, ih hnd.2⟩
      rw [upsert_keys_mem]
      intro hor
      rcases hor with h1 | h1
      · exact hnd.1 h1
      · exact he h1

theorem lastEvents_keys_nodup (evs : List WorkspaceEvent) :
    ((lastEvents evs).map Prod.fst).Nodup := by
  have hstep : ∀ (m : List (String × WorkspaceEvent)) (e : WorkspaceEvent),
      (m.map Prod.fst).Nodup → ((lastEventsStep m e).map Prod.fst).Nodup := by
    intro m e hnd
    unfold lastEventsStep
    rcases alookup m e.path with _ | ex
    · exact upsert_keys_nodup m e.path e hnd
    · dsimp only
      split_ifs
      · exact upsert_keys_nodup m e.path e hnd
      · exact hnd
  have hgen : ∀ (l : List WorkspaceEvent) (m : List (String × WorkspaceEvent)),
      (m.map Prod.fst).Nodup → ((l.foldl lastEventsStep m).map Prod.fst).Nodup := by
    intro l
    induction l with
    | nil => intro m hm; exact hm
    | cons e rest ih =>
      intro m hm
      exact ih _ (hstep m e hm)
  exact hgen evs [] (by simp)

theorem alookup_iff_mem {β : Type} (m : List (String × β))
    (hnd : (m.map Prod.fst).Nodup) (k : String) (v : β) :
    alookup m k = some v ↔ (k, v) ∈ m := by
  induction m with
  | nil => simp [alookup]
  | cons kv rest ih =>
    rcases kv with ⟨k0, v0⟩
    simp only [List.map_cons, List.nodup_cons] at hnd
    simp only [alookup, List.mem_cons]
    by_cases he : k0 = k
    · subst he
      rw [if_pos rfl]
      constructor
      · intro hv
        exact Or.inl (by rw [Option.some.inj hv])
      · intro hor
        rcases hor with h1 | h1
        · rw [((Prod.mk.injEq _ _ _ _).mp h1).2]
        · exact absurd (List.mem_map_of_mem Prod.fst h1) hnd.1
    · rw [if_neg he]
      rw [ih hnd.2]
      constructor
      · exact fun h1 => Or.inr h1
      · intro hor
        rcases hor with h1 | h1
        · exact absurd ((Prod.mk.injEq _ _ _ _).mp h1).1.symm he
        · exact h1

theorem lastEvents_append_one (evs : List WorkspaceEvent) (e : WorkspaceEvent) :
    lastEvents (evs ++ [e]) = lastEventsStep (lastEvents evs) e := by
  simp [lastEvents, List.foldl_append]

theorem lastEvents_lookup_spec (p : String) (evs : List WorkspaceEvent) :
    (alookup (lastEvents evs) p = none →
      evs.filter (fun e => decide (e.path = p)) = []) ∧
    (∀ e0, alookup (lastEvents evs) p = some e0 →
      IsFirstMax (evs.filter (fun e => decide (e.path = p))) e0) := by
  induction evs using List.reverseRecOn with
  | nil => exact ⟨fun _ => rfl, fun e0 h => absurd h (by simp [lastEvents, alookup])⟩
  | append_singleton evs e ih =>
    rw [lastEvents_append_one]
    have hfilter : (evs ++ [e]).filter (fun x => decide (x.path = p)) =
        evs.filter (fun x => decide (x.path = p)) ++
          (if e.path = p then [e] else []) := by
      rw [List.filter_append]
      congr 1
      by_cases hep : e.path = p
      · simp [List.filter, hep]
      · simp [List.filter, hep]
    by_cases hep : e.path = p
    · rw [hfilter, if_pos hep]
      unfold lastEventsStep
      rw [hep]
      rcases halk : alookup (lastEvents evs) p with _ | ex
      · dsimp only
        have hempty := ih.1 halk
        rw [hempty]
        constructor
        · intro hnone
          rw [alookup_upsert_self] at hnone
          exact absurd hnone (by simp)
        · intro e0 hsome
          rw [alookup_upsert_self] at hsome
          have he0 : e0 = e := (Option.some.inj hsome).symm
          subst he0
          exact ⟨[], [], by simp, by simp, by simp⟩
      · dsimp only
        obtain ⟨l1, l2, heq, h1, h2⟩ := ih.2 ex halk
        by_cases hts : e.timestamp > ex.timestamp
        · rw [if_pos hts]
          constructor
          · intro hnone
            rw [alookup_upsert_self] at hnone
            exact absurd hnone (by simp)
          · intro e0 hsome
            rw [alookup_upsert_self] at hsome
            have he0 : e0 = e := (Option.some.inj hsome).symm
            subst he0
            refine ⟨evs.filter (fun x => decide (x.path = p)), [], by simp, ?_, by simp⟩
            intro x hx
            rw [heq] at hx
            rcases List.mem_append.mp hx with hx1 | hx2
            · exact lt_trans (h1 x hx1) hts
            · rcases List.mem_cons.mp hx2 with rfl | hx3
              · exact hts
              · exact lt_of_le_of_lt (h2 x hx3) hts
        · rw [if_neg hts]
          constructor
          · intro hnone
            rw [halk] at hnone
            exact absurd hnone (by simp)
          · intro e0 hsome
            rw [halk] at hsome
            have he0 : e0 = ex := (Option.some.inj hsome).symm
            subst he0
            refine ⟨l1, l2 ++ [e], by rw [heq]; simp, h1, ?_⟩
            intro x hx
            rcases List.mem_append.mp hx with hx1 | hx2
            · exact h2 x hx1
            · rcases List.mem_cons.mp hx2 with rfl | hx3
              · omega
              · simp at hx3
    · rw [hfilter, if_neg hep]
      rw [List.append_nil]
      have halk2 : alookup (lastEventsStep (lastEvents evs) e) p =
          alookup (lastEvents evs) p := by
        unfold lastEventsStep
        rcases alookup (lastEvents evs) e.path with _ | ex
        · exact alookup_upsert_ne _ _ _ _ hep
        · dsimp only
          split_ifs
          · exact alookup_upsert_ne _ _ _ _ hep
          · rfl
      rw [halk2]
      exact ih

theorem closedViewAux_not_mem (openW existsD : String → Bool) (limit : Nat) :
    ∀ (ordered : List (String × Int)) (acc : List String) (p : String),
      p ∉ ordered.map Prod.fst → p ∉ acc →
      p ∉ closedViewAux openW existsD limit ordered acc := by
  intro ordered
  induction ordered with
  | nil => intro acc p _ hacc; exact hacc
  | cons qt rest ih =>
    rcases qt with ⟨q, t⟩
    intro acc p hord hacc
    simp only [List.map_cons, List.mem_cons] at hord
    have hpq : p ≠ q := fun h => hord (Or.inl h)
    have hrest : p ∉ rest.map Prod.fst := fun h => hord (Or.inr h)
    simp only [closedViewAux]
    split_ifs
    · exact ih acc p hrest hacc
    · exact ih acc p hrest hacc
    · intro hmem
      rcases List.mem_append.mp hmem with h1 | h2
      · exact hacc h1
      · rw [List.mem_singleton] at h2
        exact hpq h2
    · refine ih (acc ++ [q]) p hrest ?_
      intro hmem
      rcases List.mem_append.mp hmem with h1 | h2
      · exact hacc h1
      · rw [List.mem_singleton] at h2
        exact hpq h2

/-- C6 amended: per path the reconstruction keeps the first event, in
file order, among those with the maximal timestamp (strictly later
timestamps supersede, ties keep the earlier entry); a path enters the
closed list iff that kept event has kind "close"; and in the
scenario [100 close /p/a], [200 open /p/a] the derived state of /p/a
is the open event, /p/a is absent from the closed list and from the
ledger-derived history view under any traversal order. -/
theorem workspace_last_write_wins (evs : List WorkspaceEvent) (p : String) :
    (∀ e0, alookup (lastEvents evs) p = some e0 →
      IsFirstMax (evs.filter (fun e => decide (e.path = p))) e0) ∧
    (alookup (lastEvents evs) p = none →
      evs.filter (fun e => decide (e.path = p)) = []) ∧
    (p ∈ (closedList evs).map Prod.fst ↔
      ∃ e, alookup (lastEvents evs) p = some e ∧ e.event = "close") ∧
    (alookup (lastEvents [⟨"/p/a", "close", 100⟩, ⟨"/p/a", "open", 200⟩]) "/p/a" =
        some ⟨"/p/a", "open", 200⟩ ∧
      closedList [⟨"/p/a", "close", 100⟩, ⟨"/p/a", "open", 200⟩] = [] ∧
      ∀ (ordered : List (String × Int)) (openW existsD : String → Bool) (limit : Nat),
        ordered.Perm (closedList [⟨"/p/a", "close", 100⟩, ⟨"/p/a", "open", 200⟩]) →
        "/p/a" ∉ closedView ordered openW existsD limit) := by
  refine ⟨(lastEvents_lookup_spec p evs).2, (lastEvents_lookup_spec p evs).1, ?_, ?_⟩
  · constructor
    · intro hmem
      rcases List.mem_map.mp hmem with ⟨pt, hpt, hfst⟩
      unfold closedList at hpt
      rcases List.mem_filterMap.mp hpt with ⟨pe, hpe, hcl⟩
      by_cases hev : pe.2.event = "close"
      · rw [if_pos hev] at hcl
        have hp1 : pe.1 = p := by
          rw [← hfst, ← (Prod.mk.injEq _ _ _ _).mp (Option.some.inj hcl).symm |>.1]
        refine ⟨pe.2, ?_, hev⟩
        rw [alookup_iff_mem _ (lastEvents_keys_nodup evs)]
        rw [← hp1]
        exact hpe
      · rw [if_neg hev] at hcl
        exact absurd hcl (by simp)
    · intro he
      rcases he with ⟨e, halk, hev⟩
      have hmem : (p, e) ∈ lastEvents evs :=
        (alookup_iff_mem _ (lastEvents_keys_nodup evs) p e).mp halk
      refine List.mem_map.mpr ⟨(p, e.timestamp), ?_, rfl⟩
      unfold closedList
      refine List.mem_filterMap.mpr ⟨(p, e), hmem, ?_⟩
      rw [if_pos hev]
  · refine ⟨by decide, by decide, ?_⟩
    intro ordered openW existsD limit hperm
    have hnil : ordered = [] := by
      have := hperm
      rw [show closedList [⟨"/p/a", "close", 100⟩, ⟨"/p/a", "open", 200⟩] =
        ([] : List (String × Int)) from by decide] at this
      exact this.eq_nil
    subst hnil
    simp [closedView, closedViewAux]

/-- C6 counterexample: two events for one path with the same maximal
timestamp — the kept event depends on file position, so
last-write-wins is not independent of position on timestamp ties. -/
theorem lastEvents_tie_counterexample :
    alookup (lastEvents [⟨"/p", "close", 100⟩, ⟨"/p", "open", 100⟩]) "/p" =
      some ⟨"/p", "close", 100⟩ ∧
    alookup (lastEvents [⟨"/p", "open", 100⟩, ⟨"/p", "close", 100⟩]) "/p" =
      some ⟨"/p", "open", 100⟩ ∧
    (⟨"/p", "close", 100⟩ : WorkspaceEvent) ≠ ⟨"/p", "open", 100⟩ := by
  refine ⟨by decide, by decide, by decide⟩

/-- C6 witness: the kept-event characterisation applied at the
scenario's event list. -/
theorem workspace_last_write_wins_witness :
    IsFirstMax ([⟨"/p/a", "close", 100⟩, ⟨"/p/a", "open", 200⟩].filter
        (fun e => decide (e.path = "/p/a")))
      ⟨"/p/a", "open", 200⟩ :=
  (workspace_last_write_wins [⟨"/p/a", "close", 100⟩, ⟨"/p/a", "open", 200⟩] "/p/a").1
    ⟨"/p/a", "open", 200⟩ (by decide)

/-- The per-port JSON payload of the unified view (`PortJSON`). -/
structure PortJSON where
  port : Int
  command : String
  pid : String
  uptime : String
  workdir : String
deriving DecidableEq, Repr

/-- The projection `displayUnified` applies to a matched port. -/
def toPortJSON (p : PortInfo) : PortJSON :=
  ⟨p.port, p.command, p.pid, p.uptime, p.path⟩

/-- An element of the unified result (`UnifiedItem`). -/
structure UnifiedItem where
  type : String
  workspacePath : String
  workspaceName : String
  lastActive : Int
  ports : List PortJSON
deriving DecidableEq, Repr

/-- Model of `filepath.Base`. -/
def baseName (p : String) : String :=
  let trimmed := (p.data.reverse.dropWhile (fun c => c == '/')).reverse
  if p.data.isEmpty then "."
  else if trimmed.isEmpty then "/"
  else ⟨(trimmed.reverse.takeWhile (fun c => c != '/')).reverse⟩

/-- `strings.HasPrefix(s, pre)` over the bytes of the strings. -/
def strHasPre (pre s : String) : Bool :=
  pre.data.isPrefixOf s.data

/-- The first workspace, in map-iteration order, whose path is a
string prefix of the port's working directory (the matching loop of
`displayUnified`, which breaks at the first hit). -/
def firstMatchWs (wsOrder : List String) (portPath : String) : Option String :=
  wsOrder.find? (fun w => strHasPre w portPath)

/-- Append one port to the ports list of a bucket (the mutation
`item.Ports = append(item.Ports, ...)` through the map pointer). -/
def appendAt : List (String × List PortJSON) → String → PortJSON →
    List (String × List PortJSON)
  | [], k, v => [(k, [v])]
  | (k0, ps) :: rest, k, v =>
    if k0 = k then (k0, ps ++ [v]) :: rest else (k0, ps) :: appendAt rest k v

/-- The port-to-workspace matching loop of `displayUnified` over the
user ports, with the workspace iteration order as a parameter (Go map
iteration order is unspecified). -/
def assignLoop (wsOrder : List String) :
    List PortInfo → List (String × List PortJSON) → List PortJSON →
    List (String × List PortJSON) × List PortJSON
  | [], buckets, orphans => (buckets, orphans)
  | p :: rest, buckets, orphans =>
    match firstMatchWs wsOrder p.path with
    | some w => assignLoop wsOrder rest (appendAt buckets w (toPortJSON p)) orphans
    | none => assignLoop wsOrder rest buckets (orphans ++ [toPortJSON p])

/-- The initial `workspaceMap` content: one empty bucket per
workspace path. -/
def initBuckets (wsEntries : List (String × Int)) : List (String × List PortJSON) :=
  wsEntries.map (fun x => (x.1, []))

/-- The workspace items of the unified view, each carrying its
assigned ports. -/
def unifiedItems (wsEntries : List (String × Int)) (wsOrder : List String)
    (userPorts : List PortInfo) : List UnifiedItem :=
  wsEntries.map (fun we =>
    ⟨"workspace", we.1, baseName we.1, we.2,
      (alookup (assignLoop wsOrder userPorts (initBuckets wsEntries) []).1 we.1).getD []⟩)

/-- The orphaned ports of the unified view. -/
def orphanPortsOf (wsOrder : List String) (wsEntries : List (String × Int))
    (userPorts : List PortInfo) : List PortJSON :=
  (assignLoop wsOrder userPorts (initBuckets wsEntries) []).2

/-- The unified result: the sorted workspace items followed by the
orphaned bucket when it is nonempty (`displayUnified`); the sorted
order is a parameter because `sort.Slice` leaves ties unspecified. -/
def unifiedResult (wsEntries : List (String × Int)) (wsOrder : List String)
    (userPorts : List PortInfo) (sortedWs : List UnifiedItem) : List UnifiedItem :=
  sortedWs ++ (if orphanPortsOf wsOrder wsEntries userPorts = [] then []
    else [⟨"orphaned", "", "", 0, orphanPortsOf wsOrder wsEntries userPorts⟩])

theorem alookup_appendAt_self (m : List (String × List PortJSON)) (k : String)
    (v : PortJSON) (cur : List PortJSON) (h : alookup m k = some cur) :
    alookup (appendAt m k v) k = some (cur ++ [v]) := by
  induction m with
  | nil => simp [alookup] at h
  | cons kv rest ih =>
    rcases kv with ⟨k0, ps⟩
    simp only [alookup] at h
    simp only [appendAt]
    by_cases he : k0 = k
    · rw [if_pos he] at h ⊢
      simp only [alookup]
      rw [if_pos he, Option.some.inj h]
    · rw [if_neg he] at h ⊢
      simp only [alookup]
      rw [if_neg he]
      exact ih h

theorem alookup_appendAt_ne (m : List (String × List PortJSON)) (k : String)
    (v : PortJSON) (k' : String) (h : k ≠ k') :
    alookup (appendAt m k v) k' = alookup m k' := by
  induction m with
  | nil =>
    simp only [appendAt, alookup]
    rw [if_neg h]
  | cons kv rest ih =>
    rcases kv with ⟨k0, ps⟩
    simp only [appendAt]
    by_cases he : k0 = k
    · rw [if_pos he]
      simp only [alookup]
      by_cases he2 : k0 = k'
      · exact absurd (he ▸ he2) h
      · rw [if_neg he2, if_neg he2]
    · rw [if_neg he]
      simp only [alookup]
      by_cases he2 : k0 = k'
      · rw [if_pos he2, if_pos he2]
      · rw [if_neg he2, if_neg he2]
        exact ih

theorem assignLoop_spec (wsOrder : List String) :
    ∀ (ports : List PortInfo) (buckets : List (String × List PortJSON))
      (orphans : List PortJSON),
      (∀ w cur, alookup buckets w = some cur →
        alookup (assignLoop wsOrder ports buckets orphans).1 w =
          some (cur ++ (ports.filter
            (fun p => firstMatchWs wsOrder p.path == some w)).map toPortJSON)) ∧
      (assignLoop wsOrder ports buckets orphans).2 =
        orphans ++ (ports.filter
          (fun p => firstMatchWs wsOrder p.path == none)).map toPortJSON := by
  intro ports
  induction ports with
  | nil =>
    intro buckets orphans
    constructor
    · intro w cur h
      simpa [assignLoop] using h
    · simp [assignLoop]
  | cons p rest ih =>
    intro buckets orphans
    simp only [assignLoop]
    rcases hfm : firstMatchWs wsOrder p.path with _ | w0
    · dsimp only
      constructor
      · intro w cur h
        rw [(ih buckets (orphans ++ [toPortJSON p])).1 w cur h]
        congr 1
        rw [List.filter_cons, if_neg (by rw [hfm]; simp)]
      · rw [(ih buckets (orphans ++ [toPortJSON p])).2]
        rw [List.filter_cons, if_pos (by rw [hfm]; simp)]
        simp
    · dsimp only
      constructor
      · intro w cur h
        by_cases hew : w0 = w
        · subst hew
          have hbk : alookup (appendAt buckets w0 (toPortJSON p)) w0 =
              some (cur ++ [toPortJSON p]) := alookup_appendAt_self buckets w0 _ cur h
          rw [(ih (appendAt buckets w0 (toPortJSON p)) orphans).1 w0 _ hbk]
          rw [List.filter_cons, if_pos (by rw [hfm]; simp)]
          simp
        · have hbk : alookup (appendAt buckets w0 (toPortJSON p)) w =
              alookup buckets w := alookup_appendAt_ne buckets w0 _ w hew
          rw [(ih (appendAt buckets w0 (toPortJSON p)) orphans).1 w cur (by rw [hbk]; exact h)]
          rw [List.filter_cons, if_neg (by rw [hfm]; simp [hew])]
      · rw [(ih (appendAt buckets w0 (toPortJSON p)) orphans).2]
        rw [List.filter_cons, if_neg (by rw [hfm]; simp)]

theorem alookup_initBuckets (wsEntries : List (String × Int)) (w : String)
    (h : w ∈ wsEntries.map Prod.fst) :
    alookup (initBuckets wsEntries) w = some [] := by
  induction wsEntries with
  | nil => simp at h
  | cons we rest ih =>
    simp only [List.map_cons, List.mem_cons] at h
    simp only [initBuckets, List.map_cons, alookup]
    by_cases he : we.1 = w
    · rw [if_pos he]
    · rw [if_neg he]
      rcases h with h1 | h1
      · exact absurd h1.symm he
      · exact ih h1

theorem find?_first {α : Type} (p : α → Bool) :
    ∀ (l : List α) (a : α), l.find? p = some a →
      ∃ l1 l2, l = l1 ++ a :: l2 ∧ (∀ x ∈ l1, p x = false) ∧ p a = true := by
  intro l
  induction l with
  | nil => intro a h; simp at h
  | cons x xs ih =>
    intro a h
    rcases hx : p x with _ | _
    · rw [List.find?_cons_of_neg _ (by simp [hx])] at h
      obtain ⟨l1, l2, heq, h1, h2⟩ := ih a h
      refine ⟨x :: l1, l2, by rw [heq]; rfl, ?_, h2⟩
      intro y hy
      rcases List.mem_cons.mp hy with rfl | hy2
      · exact hx
      · exact h1 y hy2
    · rw [List.find?_cons_of_pos _ hx] at h
      have ha : x = a := Option.some.inj h
      subst ha
      exact ⟨[], xs, rfl, by simp, hx⟩

/-- C7 amended: with the workspace-map iteration order as an explicit
parameter, each user port lands in exactly one bucket — the ports list
of the first workspace in iteration order whose path is a string
prefix of its working directory, else the orphaned bucket (which
workspace wins may therefore vary between runs when several match);
the workspace items of the result stay ascending by
seconds-since-last-active and the orphaned bucket, when present, is
the last item. -/
theorem unified_partition (userPorts : List PortInfo) (wsEntries : List (String × Int))
    (wsOrder : List String) (sortedWs : List UnifiedItem)
    (hord : ∀ w ∈ wsOrder, w ∈ wsEntries.map Prod.fst)
    (hperm : sortedWs.Perm (unifiedItems wsEntries wsOrder userPorts))
    (hsort : sortedWs.Pairwise (fun a b => a.lastActive ≤ b.lastActive)) :
    (∀ w ∈ wsOrder,
      alookup (assignLoop wsOrder userPorts (initBuckets wsEntries) []).1 w =
        some ((userPorts.filter
          (fun p => firstMatchWs wsOrder p.path == some w)).map toPortJSON)) ∧
    orphanPortsOf wsOrder wsEntries userPorts =
      (userPorts.filter (fun p => firstMatchWs wsOrder p.path == none)).map toPortJSON ∧
    (∀ pth w, firstMatchWs wsOrder pth = some w →
      ∃ l1 l2, wsOrder = l1 ++ w :: l2 ∧
        (∀ w2 ∈ l1, strHasPre w2 pth = false) ∧ strHasPre w pth = true) ∧
    (∀ pth, firstMatchWs wsOrder pth = none ↔
      ∀ w ∈ wsOrder, strHasPre w pth = false) ∧
    (unifiedResult wsEntries wsOrder userPorts sortedWs).Pairwise
      (fun a b => a.type = "workspace" → b.type = "workspace" →
        a.lastActive ≤ b.lastActive) ∧
    (∀ i it, (unifiedResult wsEntries wsOrder userPorts sortedWs).get? i = some it →
      it.type = "orphaned" →
      i + 1 = (unifiedResult wsEntries wsOrder userPorts sortedWs).length) := by
  have hws : ∀ it ∈ sortedWs, it.type = "workspace" := by
    intro it hit
    have := hperm.subset hit
    unfold unifiedItems at this
    rcases List.mem_map.mp this with ⟨we, _, hwe⟩
    rw [← hwe]
  refine ⟨?_, ?_, ?_, ?_, ?_, ?_⟩
  · intro w hw
    have h0 : alookup (initBuckets wsEntries) w = some [] :=
      alookup_initBuckets wsEntries w (hord w hw)
    have := (assignLoop_spec wsOrder userPorts (initBuckets wsEntries) []).1 w [] h0
    simpa using this
  · have := (assignLoop_spec wsOrder userPorts (initBuckets wsEntries) []).2
    unfold orphanPortsOf
    simpa using this
  · intro pth w h
    exact find?_first _ wsOrder w h
  · intro pth
    constructor
    · intro h w hw
      have := List.find?_eq_none.mp h w hw
      simpa using this
    · intro h
      refine List.find?_eq_none.mpr ?_
      intro w hw
      simp [h w hw]
  · unfold unifiedResult
    rw [List.pairwise_append]
    refine ⟨hsort.imp ?_, ?_, ?_⟩
    · intro a b hab
      intro _ _
      exact hab
    · split_ifs
      · simp
      · refine List.pairwise_cons.mpr ⟨?_, List.Pairwise.nil⟩
        intro b hb
        simp at hb
    · intro a ha b hb
      intro hat hbt
      exfalso
      split_ifs at hb
      · simp at hb
      · rw [List.mem_singleton] at hb
        rw [hb] at hbt
        simp at hbt
  · intro i it hget htype
    unfold unifiedResult at hget ⊢
    by_cases hi : i < sortedWs.length
    · rw [List.get?_append hi] at hget
      have hmem : it ∈ sortedWs := List.get?_mem hget
      have := hws it hmem
      rw [htype] at this
      simp at this
    · rw [List.get?_append_right (by omega)] at hget
      split_ifs at hget with horph
      · simp at hget
      · rcases hn : i - sortedWs.length with _ | n
        · rw [hn] at hget
          rw [List.length_append]
          rw [if_neg horph]
          simp only [List.length_singleton]
          omega
        · rw [hn] at hget
          simp at hget

/-- C7 counterexample: with nested workspaces /a and /a/b, which
bucket receives a port working in /a/b/c depends on the map-iteration
order — both orders are iteration orders of the same workspace set, so
"the first matching workspace wins" does not determine the partition
from the inputs alone. -/
theorem unified_order_counterexample :
    firstMatchWs ["/a", "/a/b"] "/a/b/c" = some "/a" ∧
    firstMatchWs ["/a/b", "/a"] "/a/b/c" = some "/a/b" ∧
    List.Perm ["/a", "/a/b"] ["/a/b", "/a"] ∧
    (assignLoop ["/a", "/a/b"] [⟨1, "p", "c", "", "", "/a/b/c", "", 0⟩]
        [("/a", []), ("/a/b", [])] []).1 ≠
      (assignLoop ["/a/b", "/a"] [⟨1, "p", "c", "", "", "/a/b/c", "", 0⟩]
        [("/a", []), ("/a/b", [])] []).1 := by
  refine ⟨by decide, by decide, ?_, by decide⟩
  decide

/-- C7 witness: the bucket characterisation at a concrete nested
configuration. -/
theorem unified_partition_witness :
    alookup (assignLoop ["/a", "/a/b"] [⟨1, "p", "c", "", "", "/a/b/c", "", 0⟩]
        (initBuckets [("/a", 10), ("/a/b", 20)]) []).1 "/a" =
      some (([(⟨1, "p", "c", "", "", "/a/b/c", "", 0⟩ : PortInfo)].filter
        (fun p => firstMatchWs ["/a", "/a/b"] p.path == some "/a")).map toPortJSON) :=
  (unified_partition [⟨1, "p", "c", "", "", "/a/b/c", "", 0⟩] [("/a", 10), ("/a/b", 20)]
    ["/a", "/a/b"]
    (unifiedItems [("/a", 10), ("/a/b", 20)] ["/a", "/a/b"]
      [⟨1, "p", "c", "", "", "/a/b/c", "", 0⟩])
    (by decide) (List.Perm.refl _) (by decide)).1 "/a" (by decide)

/-- The comparator of the final sort stage in `displayPorts` and
`displayPortsJSON`: ascending port for "port", else descending
uptimeSeconds. -/
def sortLess (sortOrder : String) (a b : PortInfo) : Prop :=
  if sortOrder = "port" then a.port < b.port else a.uptimeSeconds > b.uptimeSeconds

/-- The documented contract of Go's `sort.Slice`, the primitive both
display functions call: the output is a permutation of the input that
is sorted by the comparator; the order of equal elements is not
specified (`sort.Slice` is "not guaranteed to be stable"). -/
def goSortSliceContract (less : PortInfo → PortInfo → Prop)
    (inp out : List PortInfo) : Prop :=
  inp.Perm out ∧ out.Pairwise (fun a b => ¬ less b a)

/-- C8: the final sort stage uses `sort.Slice`, whose contract admits,
for one concrete input with two distinct equal-key records, both the
order-preserving output and the swapped output — so the sort stage
does not guarantee that records with equal sort key keep their
relative input order, contrary to the claim (the code would need
`sort.SliceStable`). -/
theorem sortSlice_contract_unstable :
    goSortSliceContract (sortLess "uptime")
      [⟨1, "a", "", "", "", "", "", 5⟩, ⟨2, "b", "", "", "", "", "", 5⟩]
      [⟨1, "a", "", "", "", "", "", 5⟩, ⟨2, "b", "", "", "", "", "", 5⟩] ∧
    goSortSliceContract (sortLess "uptime")
      [⟨1, "a", "", "", "", "", "", 5⟩, ⟨2, "b", "", "", "", "", "", 5⟩]
      [⟨2, "b", "", "", "", "", "", 5⟩, ⟨1, "a", "", "", "", "", "", 5⟩] ∧
    (⟨1, "a", "", "", "", "", "", 5⟩ : PortInfo) ≠ ⟨2, "b", "", "", "", "", "", 5⟩ ∧
    (⟨1, "a", "", "", "", "", "", 5⟩ : PortInfo).uptimeSeconds =
      (⟨2, "b", "", "", "", "", "", 5⟩ : PortInfo).uptimeSeconds ∧
    ([(⟨2, "b", "", "", "", "", "", 5⟩ : PortInfo), ⟨1, "a", "", "", "", "", "", 5⟩].filter
        (fun r => r.uptimeSeconds == 5) ≠
      [(⟨1, "a", "", "", "", "", "", 5⟩ : PortInfo), ⟨2, "b", "", "", "", "", "", 5⟩].filter
        (fun r => r.uptimeSeconds == 5)) := by
  refine ⟨⟨?_, ?_⟩, ⟨?_, ?_⟩, by decide, by decide, by decide⟩
  · exact List.Perm.refl _
  · refine List.pairwise_cons.mpr ⟨?_, List.pairwise_singleton _ _⟩
    intro b hb
    rw [List.mem_singleton] at hb
    subst hb
    unfold sortLess
    rw [if_neg (by decide)]
    decide
  · exact List.Perm.swap _ _ _
  · refine List.pairwise_cons.mpr ⟨?_, List.pairwise_singleton _ _⟩
    intro b hb
    rw [List.mem_singleton] at hb
    subst hb
    unfold sortLess
    rw [if_neg (by decide)]
    decide

/-- Hinnant's civil-from-days algorithm: the Gregorian
(year, month, day) of a day count from 1970-01-01. -/
def civilFromDays (z0 : Int) : Int × Nat × Nat :=
  let z := z0 + 719468
  let era := z.fdiv 146097
  let doe := (z - era * 146097).toNat
  let yoe := (doe - doe / 1460 + doe / 36524 - doe / 146096) / 365
  let y := (yoe : Int) + era * 400
  let doy := doe - (365 * yoe + yoe / 4 - yoe / 100)
  let mp := (5 * doy + 2) / 153
  let d := doy - (153 * mp + 2) / 5 + 1
  let m := if mp < 10 then mp + 3 else mp - 9
  (if m ≤ 2 then y + 1 else y, m, d)

/-- A number zero-padded to a width, as Go's reference-layout
formatting prints date components. -/
def padNum (w : Nat) (n : Nat) : String :=
  ⟨List.replicate (w - (natToChars n).length) '0' ++ natToChars n⟩

/-- Signed zero-padded number (for the year). -/
def padInt (w : Nat) (i : Int) : String :=
  if i < 0 then "-" ++ padNum w i.natAbs else padNum w i.natAbs

/-- Model of Go's `time.Format("2006-01-02 15:04:05")` — the
`YYYY-MM-DD HH:MM:SS` rendering of a clock reading counted in civil
seconds. -/
def formatDateTime (t : Int) : String :=
  let days := t.fdiv 86400
  let secs := (t - days * 86400).toNat
  let ymd := civilFromDays days
  padInt 4 ymd.1 ++ "-" ++ padNum 2 ymd.2.1 ++ "-" ++ padNum 2 ymd.2.2 ++ " " ++
    padNum 2 (secs / 3600) ++ ":" ++ padNum 2 (secs % 3600 / 60) ++ ":" ++
    padNum 2 (secs % 60)

/-- No tab character occurs in the string. -/
def strNoTab (s : String) : Prop :=
  ∀ x ∈ s.data, x ≠ '\t'

theorem strNoTab_append {a b : String} (ha : strNoTab a) (hb : strNoTab b) :
    strNoTab (a ++ b) := by
  intro x hx
  rw [String.data_append] at hx
  rcases List.mem_append.mp hx with h1 | h1
  · exact ha x h1
  · exact hb x h1

theorem natToChars_noTab (n : Nat) : ∀ x ∈ natToChars n, x ≠ '\t' := by
  intro x hx
  have d := natToChars_digit n x hx
  exact (digit_char_clean d.1 d.2).2.2.2.1

theorem padNum_noTab (w : Nat) (n : Nat) : strNoTab (padNum w n) := by
  intro x hx
  unfold padNum at hx
  rcases List.mem_append.mp hx with h1 | h1
  · rw [List.eq_of_mem_replicate h1]
    decide
  · exact natToChars_noTab n x h1

theorem padInt_noTab (w : Nat) (i : Int) : strNoTab (padInt w i) := by
  unfold padInt
  split_ifs
  · refine strNoTab_append ?_ (padNum_noTab w i.natAbs)
    intro x hx
    rw [show ("-" : String).data = ['-'] from rfl, List.mem_singleton] at hx
    subst hx
    decide
  · exact padNum_noTab w i.natAbs

theorem intToString_noTab (i : Int) : strNoTab (intToString i) := by
  unfold intToString
  split_ifs
  · intro x hx
    rcases List.mem_cons.mp hx with rfl | h1
    · decide
    · exact natToChars_noTab i.natAbs x h1
  · intro x hx
    exact natToChars_noTab i.natAbs x hx

theorem strNoTab_lit_dash : strNoTab "-" := by
  intro x hx
  rw [show ("-" : String).data = ['-'] from rfl, List.mem_singleton] at hx
  subst hx
  decide

theorem strNoTab_lit_space : strNoTab " " := by
  intro x hx
  rw [show (" " : String).data = [' '] from rfl, List.mem_singleton] at hx
  subst hx
  decide

theorem strNoTab_lit_colon : strNoTab ":" := by
  intro x hx
  rw [show (":" : String).data = [':'] from rfl, List.mem_singleton] at hx
  subst hx
  decide

theorem formatDateTime_noTab (t : Int) : ∀ x ∈ (formatDateTime t).data, x ≠ '\t' := by
  have h : strNoTab (formatDateTime t) := by
    unfold formatDateTime
    refine strNoTab_append (strNoTab_append (strNoTab_append (strNoTab_append
      (strNoTab_append (strNoTab_append (strNoTab_append (strNoTab_append
        (strNoTab_append (strNoTab_append (padInt_noTab 4 _) strNoTab_lit_dash)
          (padNum_noTab 2 _)) strNoTab_lit_dash) (padNum_noTab 2 _))
        strNoTab_lit_space) (padNum_noTab 2 _)) strNoTab_lit_colon)
      (padNum_noTab 2 _)) strNoTab_lit_colon) (padNum_noTab 2 _)
  exact h

/-- One discovery-ledger line as `logNewPorts` writes it (without the
trailing newline): start time (observation time minus uptime,
formatted YYYY-MM-DD HH:MM:SS), port, pid, command and working
directory, tab-separated. -/
def logLine (now : Int) (p : PortInfo) : String :=
  formatDateTime (now - p.uptimeSeconds) ++ "\t" ++ intToString p.port ++ "\t" ++
    p.pid ++ "\t" ++ p.command ++ "\t" ++ p.path

/-- The in-run dedup key `fmt.Sprintf("%d:%s", port, path)`. -/
def portPathKey (p : PortInfo) : String :=
  intToString p.port ++ ":" ++ p.path

/-- The key `logNewPorts` reconstructs from one existing ledger line:
`parts[1] + ":" + parts[4]` of the tab-split when it has at least five
fields. -/
def lineKey (line : String) : Option String :=
  if (splitOnChar '\t' line).length ≥ 5 then
    some ((splitOnChar '\t' line).getD 1 "" ++ ":" ++ (splitOnChar '\t' line).getD 4 "")
  else none

/-- The seen-key set loaded from the ledger at the start of a run
(content of `seenCombos`; the file is modelled as its list of
lines). -/
def loadSeen (log : List String) : List String :=
  log.filterMap lineKey

/-- One iteration of the append loop of `logNewPorts`: skip "N/A" and
"/" paths and already-seen keys; otherwise append the line and mark
the key seen immediately. -/
def logStep (now : Int) (st : List String × List String) (p : PortInfo) :
    List String × List String :=
  if p.path = "N/A" ∨ p.path = "/" then st
  else if portPathKey p ∈ st.1 then st
  else (portPathKey p :: st.1, st.2 ++ [logLine now p])

/-- One run of `logNewPorts` against the ledger file: load the seen
keys, then append one line per new (port, path) combination. -/
def logNewPorts (log : List String) (ports : List PortInfo) (now : Int) :
    List String :=
  log ++ (ports.foldl (logStep now) (loadSeen log, [])).2

/-- A sequence of runs against the same ledger, starting empty. -/
def runAll (runs : List (List PortInfo × Int)) : List String :=
  runs.foldl (fun log pr => logNewPorts log pr.1 pr.2) []

/-- A ledger line whose parsed port and path fields equal the given
pair. -/
def lineMatches (P : Int) (W : String) (line : String) : Bool :=
  decide ((splitOnChar '\t' line).length ≥ 5) &&
    ((splitOnChar '\t' line).getD 1 "" == intToString P) &&
    ((splitOnChar '\t' line).getD 4 "" == W)

/-- Record fields that serialize into a ledger line without breaking
its framing. -/
def cleanRec (p : PortInfo) : Prop :=
  (∀ x ∈ p.pid.data, x ≠ '\t' ∧ x ≠ '\n') ∧
  (∀ x ∈ p.command.data, x ≠ '\t' ∧ x ≠ '\n') ∧
  (∀ x ∈ p.path.data, x ≠ '\t' ∧ x ≠ '\n')

instance cleanRecDecidable (p : PortInfo) : Decidable (cleanRec p) := by
  unfold cleanRec
  infer_instance

theorem logLine_data (now : Int) (p : PortInfo) :
    (logLine now p).data =
      (formatDateTime (now - p.uptimeSeconds)).data ++ '\t' ::
        ((intToString p.port).data ++ '\t' ::
          (p.pid.data ++ '\t' :: (p.command.data ++ '\t' :: p.path.data))) := by
  simp [logLine, String.data_append]

theorem splitTab_logLine (now : Int) (p : PortInfo) (hc : cleanRec p) :
    splitOnChar '\t' (logLine now p) =
      [formatDateTime (now - p.uptimeSeconds), intToString p.port, p.pid,
        p.command, p.path] := by
  unfold splitOnChar
  rw [logLine_data]
  rw [splitChars_append_sep _ (formatDateTime_noTab _),
    splitChars_append_sep _ (fun x hx => intToString_noTab p.port x hx),
    splitChars_append_sep _ (fun x hx => (hc.1 x hx).1),
    splitChars_append_sep _ (fun x hx => (hc.2.1 x hx).1),
    splitChars_of_not_mem (fun x hx => (hc.2.2 x hx).1)]
  rfl

theorem splitTab_logLine_head (now : Int) (p : PortInfo) :
    (splitOnChar '\t' (logLine now p)).headD "" =
      formatDateTime (now - p.uptimeSeconds) := by
  unfold splitOnChar
  rw [logLine_data, splitChars_append_sep _ (formatDateTime_noTab _)]
  rfl

theorem lineKey_logLine (now : Int) (p : PortInfo) (hc : cleanRec p) :
    lineKey (logLine now p) = some (portPathKey p) := by
  unfold lineKey
  rw [splitTab_logLine now p hc]
  rw [if_pos (by simp)]
  rfl

theorem lineMatches_lineKey {P : Int} {W : String} {line : String}
    (h : lineMatches P W line = true) :
    lineKey line = some (intToString P ++ ":" ++ W) := by
  unfold lineMatches at h
  simp only [Bool.and_eq_true, decide_eq_true_eq, beq_iff_eq] at h
  unfold lineKey
  rw [if_pos h.1.1, h.1.2, h.2]

theorem countP_le_one_of_key_nodup {α β : Type} [DecidableEq β] (f : α → Option β)
    (l : List α) (hnd : (l.filterMap f).Nodup) (p : α → Bool) (v : β)
    (himp : ∀ x ∈ l, p x = true → f x = some v) :
    l.countP p ≤ 1 := by
  induction l with
  | nil => simp
  | cons x xs ih =>
    rw [List.filterMap_cons] at hnd
    rw [List.countP_cons]
    rcases hfx : f x with _ | b
    · rw [hfx] at hnd
      have hpx : p x = false := by
        rcases hp : p x with _ | _
        · rfl
        · exact absurd (himp x (by simp) hp) (by rw [hfx]; simp)
      rw [hpx]
      simpa using ih hnd (fun y hy hp => himp y (by simp [hy]) hp)
    · rw [hfx] at hnd
      rw [List.nodup_cons] at hnd
      rcases hp : p x with _ | _
      · simpa using ih hnd.2 (fun y hy hpy => himp y (by simp [hy]) hpy)
      · have hb : b = v := by
          have := himp x (by simp) hp
          rw [hfx] at this
          exact Option.some.inj this
        subst hb
        have hzero : xs.countP p = 0 := by
          rw [List.countP_eq_zero]
          intro y hy hpy
          have hfy := himp y (by simp [hy]) hpy
          exact hnd.1 (List.mem_filterMap.mpr ⟨y, hy, hfy⟩)
        simp [hzero]

theorem logFold_inv (now : Int) (log : List String) :
    ∀ (ports : List PortInfo) (seen acc : List String),
      (∀ p ∈ ports, cleanRec p) →
      (loadSeen (log ++ acc)).Nodup →
      (∀ k ∈ loadSeen (log ++ acc), k ∈ seen) →
      (loadSeen (log ++ (ports.foldl (logStep now) (seen, acc)).2)).Nodup ∧
      (∀ k ∈ loadSeen (log ++ (ports.foldl (logStep now) (seen, acc)).2),
        k ∈ (ports.foldl (logStep now) (seen, acc)).1) := by
  intro ports
  induction ports with
  | nil =>
    intro seen acc _ hnd hsub
    exact ⟨hnd, hsub⟩
  | cons p rest ih =>
    intro seen acc hclean hnd hsub
    have hcp : cleanRec p := hclean p (by simp)
    have hcrest : ∀ q ∈ rest, cleanRec q := fun q hq => hclean q (by simp [hq])
    rw [List.foldl_cons]
    unfold logStep
    by_cases hskip : p.path = "N/A" ∨ p.path = "/"
    · rw [if_pos hskip]
      exact ih seen acc hcrest hnd hsub
    · rw [if_neg hskip]
      by_cases hseen : portPathKey p ∈ seen
      · rw [if_pos hseen]
        exact ih seen acc hcrest hnd hsub
      · rw [if_neg hseen]
        have hkeys : loadSeen (log ++ (acc ++ [logLine now p])) =
            loadSeen (log ++ acc) ++ [portPathKey p] := by
          unfold loadSeen
          rw [← List.append_assoc, List.filterMap_append, List.filterMap_append]
          simp [lineKey_logLine now p hcp]
        refine ih (portPathKey p :: seen) (acc ++ [logLine now p]) hcrest ?_ ?_
        · rw [hkeys]
          rw [List.nodup_append]
          refine ⟨hnd, by simp, ?_⟩
          intro k hk hk2
          rw [List.mem_singleton] at hk2
          subst hk2
          exact hseen (hsub _ hk)
        · intro k hk
          rw [hkeys] at hk
          rcases List.mem_append.mp hk with h1 | h1
          · exact List.mem_cons_of_mem _ (hsub k h1)
          · rw [List.mem_singleton] at h1
            subst h1
            exact List.mem_cons_self _ _

theorem logNewPorts_nodup (log : List String) (ports : List PortInfo) (now : Int)
    (hnd : (loadSeen log).Nodup) (hclean : ∀ p ∈ ports, cleanRec p) :
    (loadSeen (logNewPorts log ports now)).Nodup := by
  unfold logNewPorts
  exact (logFold_inv now log ports (loadSeen log) [] hclean
    (by simpa using hnd) (by intro k hk; simpa using hk)).1

theorem runAll_nodup (runs : List (List PortInfo × Int))
    (hclean : ∀ pr ∈ runs, ∀ p ∈ pr.1, cleanRec p) :
    (loadSeen (runAll runs)).Nodup := by
  unfold runAll
  have hgen : ∀ (rs : List (List PortInfo × Int)) (log : List String),
      (∀ pr ∈ rs, ∀ p ∈ pr.1, cleanRec p) → (loadSeen log).Nodup →
      (loadSeen (rs.foldl (fun lg pr => logNewPorts lg pr.1 pr.2) log)).Nodup := by
    intro rs
    induction rs with
    | nil => intro log _ h; exact h
    | cons pr rest ih =>
      intro log hcl hnd
      rw [List.foldl_cons]
      exact ih _ (fun q hq => hcl q (by simp [hq]))
        (logNewPorts_nodup log pr.1 pr.2 hnd (hcl pr (by simp)))
  exact hgen runs [] hclean (by simp [loadSeen])

theorem logFold_news (now : Int) :
    ∀ (ports : List PortInfo) (seen acc : List String),
      ∀ l ∈ (ports.foldl (logStep now) (seen, acc)).2,
        l ∈ acc ∨ ∃ p ∈ ports, l = logLine now p := by
  intro ports
  induction ports with
  | nil =>
    intro seen acc l hl
    exact Or.inl hl
  | cons p rest ih =>
    intro seen acc l hl
    rw [List.foldl_cons] at hl
    unfold logStep at hl
    split_ifs at hl
    · rcases ih seen acc l hl with h1 | ⟨q, hq, he⟩
      · exact Or.inl h1
      · exact Or.inr ⟨q, by simp [hq], he⟩
    · rcases ih seen acc l hl with h1 | ⟨q, hq, he⟩
      · exact Or.inl h1
      · exact Or.inr ⟨q, by simp [hq], he⟩
    · rcases ih _ _ l hl with h1 | ⟨q, hq, he⟩
      · rcases List.mem_append.mp h1 with h2 | h2
        · exact Or.inl h2
        · rw [List.mem_singleton] at h2
          exact Or.inr ⟨p, by simp, h2⟩
      · exact Or.inr ⟨q, by simp [hq], he⟩

/-- C1 amended: provided every record's pid, command and working
directory are free of tab and newline characters (so one record is one
tab-framed line), any sequence of `logNewPorts` runs starting from an
empty readable ledger appends at most one line whose parsed port and
path fields equal any given (port, workingDirectory) pair; and every
run only appends lines, each appended line being the serialisation of
one of its input records with timestamp field equal to the run's
observation time minus that record's uptimeSeconds in YYYY-MM-DD
HH:MM:SS form. -/
theorem discovery_ledger_append_once (runs : List (List PortInfo × Int))
    (hclean : ∀ pr ∈ runs, ∀ p ∈ pr.1, cleanRec p) (P : Int) (W : String) :
    (runAll runs).countP (lineMatches P W) ≤ 1 ∧
    (∀ (log : List String) (ports : List PortInfo) (now : Int),
      ∃ news, logNewPorts log ports now = log ++ news ∧
        ∀ l ∈ news, ∃ p ∈ ports, l = logLine now p ∧
          (splitOnChar '\t' l).headD "" =
            formatDateTime (now - p.uptimeSeconds)) := by
  constructor
  · exact countP_le_one_of_key_nodup lineKey (runAll runs) (runAll_nodup runs hclean)
      (lineMatches P W) (intToString P ++ ":" ++ W)
      (fun x _ hx => lineMatches_lineKey hx)
  · intro log ports now
    refine ⟨(ports.foldl (logStep now) (loadSeen log, [])).2, rfl, ?_⟩
    intro l hl
    rcases logFold_news now ports (loadSeen log) [] l hl with h1 | ⟨p, hp, he⟩
    · simp at h1
    · subst he
      exact ⟨p, hp, rfl, splitTab_logLine_head now p⟩

/-- C1 counterexample: with a tab character inside a pid, one run from
an empty readable log appends two lines whose parsed port and path
fields both equal (1, "/a") — a pair with path neither "N/A" nor
"/" — so the claim as stated fails without a framing proviso. -/
theorem discovery_ledger_tab_counterexample :
    (runAll [([⟨1, "x", "c", "", "", "/a", "", 0⟩,
        ⟨1, "p\tq", "/a", "", "", "/w", "", 0⟩], 0)]).countP
      (lineMatches 1 "/a") = 2 ∧
    ("/a" : String) ≠ "N/A" ∧ ("/a" : String) ≠ "/" := by
  refine ⟨by decide, by decide, by decide⟩

/-- C1 witness: two runs observing the same record produce a single
matching ledger line. -/
theorem discovery_ledger_append_once_witness :
    (runAll [([⟨1, "x", "c", "", "", "/a", "", 0⟩], 0),
      ([⟨1, "x", "c", "", "", "/a", "", 0⟩], 50)]).countP
        (lineMatches 1 "/a") ≤ 1 :=
  (discovery_ledger_append_once
    [([⟨1, "x", "c", "", "", "/a", "", 0⟩], 0),
      ([⟨1, "x", "c", "", "", "/a", "", 0⟩], 50)]
    (by decide) 1 "/a").1

end Portage
